import Mathlib

/-!
# Verification of the alias-import rewriter (`fix-imports.py`)

Shallow embedding of the Python script `src/fix-imports.py`.

Modelling conventions:
* File contents are `List Char`; filesystem paths are lists of path components
  (`List String`), already split on the separator, with no empty components.
* The process working directory (used by `os.path.abspath`) is an explicit
  `cwd : List String` parameter; an absolute path is `cwd ++ relativeComponents`.
* `str.replace(old, new)` (all occurrences, left to right, non-overlapping) is
  `replaceAll old new s`; it is faithful for nonempty `old`, and every `old`
  the script passes is nonempty.
* `re.finditer(pattern, content)` for the script's patterns
  `from ["']@/<dir>/` is `findMatches suffix content`: the list of matched
  texts, scanning left to right and resuming after each match.  The iterator
  is created on the content as read, before any replacement, exactly as in
  the script.
* Reading and writing the file are dropped: `fix_imports` maps the old content
  to the new content, paired with the returned `True`.
-/

set_option maxHeartbeats 1000000

namespace FixImports

/-- Length of the longest common component-wise prefix of two split paths,
as computed by `os.path.commonprefix` on component lists inside
`posixpath.relpath`. -/
def commonPrefixLen : List String → List String → Nat
  | a :: as, b :: bs => if a = b then commonPrefixLen as bs + 1 else 0
  | _, _ => 0

/-- The component list produced by `posixpath.relpath(path, start)` for two
absolute, already-normalised component lists: `..` for each non-shared
component of `start`, then the non-shared components of `path`. -/
def relpathComps (path start : List String) : List String :=
  let i := commonPrefixLen path start
  List.replicate (start.length - i) ".." ++ path.drop i

/-- Join components with `/`, as `posixpath.join` does in `relpath`. -/
def joinSlash : List (List Char) → List Char
  | [] => []
  | [x] => x
  | x :: xs => x ++ '/' :: joinSlash xs

/-- `posixpath.relpath(path, start)` on absolute component lists, as a
character list.  An empty component list means the two paths coincide and the
result is `"."`. -/
def relpath (path start : List String) : List Char :=
  let comps := relpathComps path start
  if comps.isEmpty then ['.'] else joinSlash (comps.map String.toList)

/-- `s.replace(old, new)` on character lists (all non-overlapping occurrences,
left to right), via a structurally recursive scanner.  `skip > 0` means the
next `skip` characters belong to a just-replaced match and are consumed
without being copied.  Faithful to Python for nonempty `old`. -/
def replaceAllAux (old new : List Char) : Nat → List Char → List Char
  | _, [] => []
  | skip + 1, _ :: rest => replaceAllAux old new skip rest
  | 0, c :: rest =>
    if old.isPrefixOf (c :: rest) then
      new ++ replaceAllAux old new (old.length - 1) rest
    else
      c :: replaceAllAux old new 0 rest

/-- `s.replace(old, new)` for nonempty `old`. -/
def replaceAll (old new s : List Char) : List Char :=
  replaceAllAux old new 0 s

/-- The single-quote character (written via its code point to keep the file
free of quote-escape noise). -/
def sq : Char := Char.ofNat 39

/-- The text matched by the regex `from ["']<suffix>` when the quote is `"`. -/
def litD (suffix : List Char) : List Char := "from \"".toList ++ suffix

/-- The text matched by the regex `from ["']<suffix>` when the quote is `'`. -/
def litS (suffix : List Char) : List Char := "from ".toList ++ sq :: suffix

/-- Attempt to match the regex `from ["']<suffix>` at the start of `s`,
returning the matched text (`match.group(0)`). -/
def tryMatch (suffix s : List Char) : Option (List Char) :=
  if (litD suffix).isPrefixOf s then some (litD suffix)
  else if (litS suffix).isPrefixOf s then some (litS suffix)
  else none

/-- `re.finditer` scanner: scan left to right; on a match emit its text and
resume after it (`skip` consumes the remainder of a match, as in
`replaceAllAux`). -/
def findMatchesAux (suffix : List Char) : Nat → List Char → List (List Char)
  | _, [] => []
  | skip + 1, _ :: rest => findMatchesAux suffix skip rest
  | 0, c :: rest =>
    match tryMatch suffix (c :: rest) with
    | some m => m :: findMatchesAux suffix (m.length - 1) rest
    | none => findMatchesAux suffix 0 rest

/-- The list of texts matched by `re.finditer(pattern, content)`. -/
def findMatches (suffix s : List Char) : List (List Char) :=
  findMatchesAux suffix 0 s

/-- `get_relative_path(from_file, to_dir)`.
`from_file` is the (relative) path of the file being edited, `to_dir` the
absolute target directory.  `from_dir = Path(from_file).parent`;
`os.path.relpath` absolutises the start against `cwd`;  backslashes are
replaced by slashes; a result not starting with `.` is prefixed with `./`.
On POSIX with a nonempty target, `os.path.relpath` cannot raise, so the
`except: return None` branch of the script is dead code here; the `Option`
return type records its existence for the caller's truthiness test. -/
def get_relative_path (cwd : List String) (from_file to_dir : List String) :
    Option (List Char) :=
  let from_dir := from_file.dropLast
  let rel := replaceAll ['\\'] ['/'] (relpath to_dir (cwd ++ from_dir))
  some (if rel.head? = some '.' then rel else '.' :: '/' :: rel)

/-- The script's fixed pattern table: regex suffix after `from ["']`, paired
with the target subdirectory name. -/
def patterns : List (List Char × String) :=
  [("@/components/".toList, "components"),
   ("@/lib/".toList, "lib"),
   ("@/context/".toList, "context"),
   ("@/types".toList, "types")]

/-- `new_import = old_import.replace('@/', rel_path + '/')`. -/
def newImportOf (rel old : List Char) : List Char :=
  replaceAll "@/".toList (rel ++ ['/']) old

/-- The body of the `for pattern, target_dir in patterns` loop for one
pattern: compute the finditer matches of the incoming content, then for each
match compute the relative path via `g` (abstracting `get_relative_path`,
already applied to the working directory) and, when it is truthy, replace the
matched text throughout the current content. -/
def applyPattern (g : List String → List String → Option (List Char))
    (cwd : List String) (file_path : List String) (content : List Char)
    (pt : List Char × String) : List Char :=
  (findMatches pt.1 content).foldl
    (fun c old_import =>
      let target_path := (cwd ++ ["src"]) ++ [pt.2]
      match g file_path target_path with
      | none => c
      | some rel_path =>
        if rel_path.isEmpty then c
        else replaceAll old_import (newImportOf rel_path old_import) c)
    content

/-- `fix_imports` with the relative-path computation abstracted, returning the
rewritten content. -/
def fix_imports_core (g : List String → List String → Option (List Char))
    (cwd file_path : List String) (content : List Char) : List Char :=
  patterns.foldl (applyPattern g cwd file_path) content

/-- `fix_imports(file_path)`: the new content of the file together with the
returned value (always `True`). -/
def fix_imports (cwd file_path : List String) (content : List Char) :
    List Char × Bool :=
  (fix_imports_core (get_relative_path cwd) cwd file_path content, true)

/-- Last path component (the file name seen by the glob). -/
def lastComponent (p : List String) : String := p.getLastD ""

/-- Substring test (does `pat` occur in the list?). -/
def containsSub (pat : List Char) : List Char → Bool
  | [] => pat.isEmpty
  | c :: rest => pat.isPrefixOf (c :: rest) || containsSub pat rest

/-- `fnmatch` of a file name against the glob `*.ts*`: the name contains the
substring `.ts`. -/
def matchesTsGlob (name : String) : Bool :=
  containsSub ".ts".toList name.toList

/-- Whether `Path('src').rglob('*.ts*')` yields this (relative) file path:
a proper descendant of `src` whose name matches the glob. -/
def shouldProcess (p : List String) : Bool :=
  match p with
  | "src" :: c :: rest => matchesTsGlob (lastComponent (c :: rest))
  | _ => false

/-- The `__main__` traversal over a model filesystem (a list of files, each a
path with its content): every matching file is rewritten in place via
`fix_imports` and counted; the result is the new filesystem and
`files_processed`. -/
def run (cwd : List String) (files : List (List String × List Char)) :
    List (List String × List Char) × Nat :=
  (files.map (fun f =>
      if shouldProcess f.1 then (f.1, (fix_imports cwd f.1 f.2).1) else f),
   (files.filter (fun f => shouldProcess f.1)).length)

/-! ## Basic equations for the scanners -/

theorem replaceAllAux_drop (old new : List Char) :
    ∀ (s : List Char) (k : Nat),
      replaceAllAux old new k s = replaceAll old new (s.drop k) := by
  intro s
  induction s with
  | nil => intro k; cases k <;> rfl
  | cons c rest ih =>
    intro k
    cases k with
    | zero => rfl
    | succ k => simpa [replaceAllAux] using ih k

@[simp] theorem replaceAll_nil (old new : List Char) :
    replaceAll old new [] = [] := rfl

theorem replaceAll_cons (old new : List Char) (c : Char) (rest : List Char) :
    replaceAll old new (c :: rest) =
      if old.isPrefixOf (c :: rest) then
        new ++ replaceAllAux old new (old.length - 1) rest
      else c :: replaceAllAux old new 0 rest := rfl

theorem replaceAll_pos {old : List Char} (new : List Char) {c : Char}
    {rest : List Char} (hne : old ≠ []) (h : old <+: c :: rest) :
    replaceAll old new (c :: rest) =
      new ++ replaceAll old new ((c :: rest).drop old.length) := by
  match old, hne with
  | o :: old2, _ =>
    rw [replaceAll_cons, if_pos (List.isPrefixOf_iff_prefix.mpr h),
      replaceAllAux_drop]
    simp [List.drop_succ_cons]

theorem replaceAll_neg {old : List Char} (new : List Char) {c : Char}
    {rest : List Char} (h : ¬ old <+: c :: rest) :
    replaceAll old new (c :: rest) = c :: replaceAll old new rest := by
  rw [replaceAll_cons, if_neg (fun hb => h (List.isPrefixOf_iff_prefix.mp hb))]
  rw [replaceAllAux_drop]
  rfl

theorem findMatchesAux_drop (suffix : List Char) :
    ∀ (s : List Char) (k : Nat),
      findMatchesAux suffix k s = findMatches suffix (s.drop k) := by
  intro s
  induction s with
  | nil => intro k; cases k <;> rfl
  | cons c rest ih =>
    intro k
    cases k with
    | zero => rfl
    | succ k => simpa [findMatchesAux] using ih k

@[simp] theorem findMatches_nil (suffix : List Char) :
    findMatches suffix [] = [] := rfl

theorem findMatches_cons (suffix : List Char) (c : Char) (rest : List Char) :
    findMatches suffix (c :: rest) =
      match tryMatch suffix (c :: rest) with
      | some m => m :: findMatchesAux suffix (m.length - 1) rest
      | none => findMatchesAux suffix 0 rest := rfl

theorem findMatches_cons_some {suffix m : List Char} {c : Char}
    {rest : List Char} (h : tryMatch suffix (c :: rest) = some m) :
    findMatches suffix (c :: rest) =
      m :: findMatches suffix (rest.drop (m.length - 1)) := by
  rw [findMatches_cons, h]
  simp only [findMatchesAux_drop]

theorem findMatches_cons_none {suffix : List Char} {c : Char}
    {rest : List Char} (h : tryMatch suffix (c :: rest) = none) :
    findMatches suffix (c :: rest) = findMatches suffix rest := by
  rw [findMatches_cons, h]
  simp only [findMatchesAux_drop, List.drop_zero]

/-! ## Prefix and infix helpers -/

theorem pref_total {l₁ l₂ l₃ : List Char} (h₁ : l₁ <+: l₃) (h₂ : l₂ <+: l₃) :
    l₁ <+: l₂ ∨ l₂ <+: l₁ :=
  List.prefix_or_prefix_of_prefix h₁ h₂

theorem infix_cons_ext {L t : List Char} {a : Char} (h : L <:+: t) :
    L <:+: a :: t :=
  List.infix_cons h

theorem infix_append_left {L y : List Char} (x : List Char) (h : L <:+: y) :
    L <:+: x ++ y := by
  obtain ⟨pre, post, rfl⟩ := h
  exact ⟨x ++ pre, post, by simp⟩

theorem infix_append_right {L x : List Char} (y : List Char) (h : L <:+: x) :
    L <:+: x ++ y := by
  obtain ⟨pre, post, rfl⟩ := h
  exact ⟨pre, post ++ y, by simp⟩

theorem infix_of_drop {L s : List Char} (n : Nat) (h : L <:+: s.drop n) :
    L <:+: s :=
  h.trans (List.drop_suffix n s).isInfix

theorem pref_append_cases {L x y : List Char} (h : L <+: x ++ y) :
    L <+: x ∨ ∃ u, L = x ++ u ∧ u <+: y := by
  induction x generalizing L with
  | nil => exact Or.inr ⟨L, rfl, h⟩
  | cons a x ih =>
    match L, h with
    | [], _ => exact Or.inl (List.nil_prefix)
    | b :: L2, h =>
      rw [List.cons_append, List.cons_prefix_cons] at h
      obtain ⟨rfl, h2⟩ := h
      rcases ih h2 with h3 | ⟨u, rfl, hu⟩
      · exact Or.inl (List.cons_prefix_cons.mpr ⟨rfl, h3⟩)
      · exact Or.inr ⟨u, rfl, hu⟩

theorem infix_append_cases {L x y : List Char} (h : L <:+: x ++ y) :
    L <:+: x ∨ L <:+: y ∨
      ∃ t u, t ≠ [] ∧ u ≠ [] ∧ L = t ++ u ∧ t <:+ x ∧ u <+: y := by
  induction x generalizing L with
  | nil => exact Or.inr (Or.inl h)
  | cons a x ih =>
    rw [List.cons_append, List.infix_cons_iff] at h
    rcases h with h | h
    · rw [← List.cons_append] at h
      rcases pref_append_cases h with h2 | ⟨u, rfl, hu⟩
      · exact Or.inl h2.isInfix
      · by_cases hu0 : u = []
        · subst hu0
          exact Or.inl (by simp)
        · exact Or.inr (Or.inr ⟨a :: x, u, by simp, hu0, rfl,
            List.suffix_refl _, hu⟩)
    · rcases ih h with h2 | h2 | ⟨t, u, ht0, hu0, rfl, htx, huy⟩
      · exact Or.inl (infix_cons_ext h2)
      · exact Or.inr (Or.inl h2)
      · exact Or.inr (Or.inr ⟨t, u, ht0, hu0, rfl,
          htx.trans (List.suffix_cons a x), huy⟩)

/-! ## f-anchored strings

Every string the rewriter searches for or substitutes starts with the letter
`f` (of `from `) and contains no further `f`: the matched texts do, and so do
the replacement texts, because the relative paths are built from `..`, `src`
and the four target directory names, none of which contains an `f`.  Two such
strings can therefore only overlap when one is a prefix of the other, which
drives all the occurrence book-keeping below. -/

def fFree (l : List Char) : Prop := ∀ c ∈ l, c ≠ 'f'

instance (l : List Char) : Decidable (fFree l) := by
  unfold fFree
  infer_instance

def anchored (l : List Char) : Prop := l.head? = some 'f' ∧ fFree l.tail

instance (l : List Char) : Decidable (anchored l) := by
  unfold anchored
  infer_instance

def sharesPref (a b : List Char) : Prop := a <+: b ∨ b <+: a

instance (a b : List Char) : Decidable (sharesPref a b) := by
  unfold sharesPref
  infer_instance

theorem anch_cases {L : List Char} (h : anchored L) :
    ∃ t, L = 'f' :: t ∧ fFree t := by
  match L, h with
  | c :: t, h =>
    have hc : c = 'f' := by simpa using h.1
    exact ⟨t, by rw [hc], h.2⟩

theorem anch_ne_nil {L : List Char} (h : anchored L) : L ≠ [] := by
  obtain ⟨t, rfl, -⟩ := anch_cases h
  simp

theorem fFree_cons_down {p : Char} {P2 : List Char} (h : fFree (p :: P2)) :
    fFree P2 := fun x hx => h x (by simp [hx])

theorem not_infix_of_fFree {P t : List Char} (hP : anchored P) (ht : fFree t) :
    ¬ P <:+: t := by
  intro h
  obtain ⟨u, rfl, -⟩ := anch_cases hP
  exact ht 'f' (h.sublist.subset (by simp)) rfl

theorem anch_infix_pref {P Q : List Char} (hP : anchored P) (hQ : anchored Q)
    (h : P <:+: Q) : P <+: Q := by
  obtain ⟨tq, rfl, hq⟩ := anch_cases hQ
  rcases List.infix_cons_iff.mp h with h2 | h2
  · exact h2
  · exact absurd h2 (not_infix_of_fFree hP hq)

/-! ## Occurrence lemmas for `replaceAll` -/

/-- If `old` does not occur in `s`, the replacement is the identity. -/
theorem replaceAll_not_occ {old new s : List Char} (h : ¬ old <:+: s) :
    replaceAll old new s = s := by
  induction s with
  | nil => rfl
  | cons c rest ih =>
    have h1 : ¬ old <+: c :: rest := fun hp => h hp.isInfix
    rw [replaceAll_neg new h1, ih (fun hi => h (infix_cons_ext hi))]

/-- If `old` occurs in `s`, the replacement text occurs in the result. -/
theorem new_infix_replaceAll {old new s : List Char} (hne : old ≠ [])
    (h : old <:+: s) : new <:+: replaceAll old new s := by
  induction s with
  | nil => exact absurd (List.sublist_nil.mp h.sublist) hne
  | cons c rest ih =>
    by_cases hp : old <+: c :: rest
    · rw [replaceAll_pos new hne hp]
      exact infix_append_right _ (List.infix_refl new)
    · rcases List.infix_cons_iff.mp h with h2 | h2
      · exact absurd h2 hp
      · rw [replaceAll_neg new hp]
        exact infix_cons_ext (ih h2)

/-- An `f`-free prefix of the rewritten text is a prefix of the original:
every substituted block starts with `f`, so an `f`-free prefix cannot reach
into one. -/
theorem ffree_pref_reflect {old new : List Char} (hold : old ≠ [])
    (hnew : new.head? = some 'f') :
    ∀ {s P : List Char}, fFree P → P <+: replaceAll old new s → P <+: s := by
  intro s
  induction s with
  | nil =>
    intro P hP h
    simpa using h
  | cons c rest ih =>
    intro P hP h
    by_cases hp : old <+: c :: rest
    · rw [replaceAll_pos new hold hp] at h
      cases new with
      | nil => simp at hnew
      | cons n0 nt =>
        have hn0 : n0 = 'f' := by simpa using hnew
        match P, h with
        | [], _ => exact List.nil_prefix
        | p :: P2, h =>
          rw [List.cons_append, List.cons_prefix_cons] at h
          exact absurd (h.1.trans hn0) (hP p (by simp))
    · rw [replaceAll_neg new hp] at h
      match P, h with
      | [], _ => exact List.nil_prefix
      | p :: P2, h =>
        rw [List.cons_prefix_cons] at h
        obtain ⟨rfl, h2⟩ := h
        exact List.cons_prefix_cons.mpr ⟨rfl, ih (fFree_cons_down hP) h2⟩

/-- An `f`-free prefix of the original text survives the rewriting:
no match can start strictly inside it, because matches start with `f`. -/
theorem ffree_pref_keep {old new : List Char} (hold : anchored old) :
    ∀ {P s : List Char}, fFree P → P <+: s → P <+: replaceAll old new s := by
  intro P
  induction P with
  | nil => intro s _ _; exact List.nil_prefix
  | cons p P2 ih =>
    intro s hP h
    match s, h with
    | s0 :: rest, h =>
      rw [List.cons_prefix_cons] at h
      obtain ⟨rfl, h2⟩ := h
      have hp : ¬ old <+: p :: rest := by
        intro hop
        obtain ⟨t, rfl, -⟩ := anch_cases hold
        rw [List.cons_prefix_cons] at hop
        exact hP p (by simp) hop.1.symm
      rw [replaceAll_neg new hp]
      exact List.cons_prefix_cons.mpr ⟨rfl, ih (fFree_cons_down hP) h2⟩

/-- An anchored string `L` that does not occur in `R` does not occur in
`new ++ R` either, provided it cannot share a prefix with the anchored
block `new`. -/
theorem no_span_new {L new R : List Char} (hL : anchored L)
    (hnew : anchored new) (hsh : ¬ sharesPref L new) (hR : ¬ L <:+: R) :
    ¬ L <:+: new ++ R := by
  intro hcon
  rcases infix_append_cases hcon with h2 | h2 | ⟨t1, u1, ht1, hu1, hLe, htx, huy⟩
  · exact hsh (Or.inl (anch_infix_pref hL hnew h2))
  · exact hR h2
  · obtain ⟨nt, rfl, hnt⟩ := anch_cases hnew
    rcases List.suffix_cons_iff.mp htx with h3 | h3
    · refine hsh (Or.inr ⟨u1, ?_⟩)
      rw [hLe, h3]
    · obtain ⟨lt, hLf, hlf⟩ := anch_cases hL
      match t1, ht1 with
      | a :: t12, _ =>
        have ha : a = 'f' := by
          rw [hLe] at hLf
          have := congrArg List.head? hLf
          simpa using this
        exact hnt a (h3.sublist.subset (by simp)) ha

/-- An anchored string cannot start a prefix of the rewritten tail if it did
not start one of the original tail. -/
theorem no_pref_scan {L old new rest : List Char} {c : Char} (hL : anchored L)
    (hold : anchored old) (hnew : anchored new)
    (h : ¬ L <+: c :: rest) : ¬ L <+: c :: replaceAll old new rest := by
  intro hcon
  obtain ⟨lt, rfl, hlf⟩ := anch_cases hL
  rw [List.cons_prefix_cons] at hcon
  obtain ⟨hc, h2⟩ := hcon
  exact h (List.cons_prefix_cons.mpr
    ⟨hc, ffree_pref_reflect (anch_ne_nil hold) hnew.1 hlf h2⟩)

/-- Presence of an anchored string `L` is preserved by replacing a different
anchored string `old` (one that cannot share a prefix with `L`): occurrences
of the two cannot overlap. -/
theorem preserve_occurrence {L old new : List Char} (hL : anchored L)
    (hold : anchored old) (hsh : ¬ sharesPref L old) :
    ∀ s, L <:+: s → L <:+: replaceAll old new s := by
  have main : ∀ n s, s.length ≤ n → L <:+: s → L <:+: replaceAll old new s := by
    intro n
    induction n with
    | zero =>
      intro s hs h
      have h0 : s = [] := List.eq_nil_of_length_eq_zero (Nat.le_zero.mp hs)
      subst h0
      simpa using h
    | succ n ih =>
      intro s hs h
      match s with
      | [] => simpa using h
      | c :: rest =>
        by_cases hp : old <+: c :: rest
        · rw [replaceAll_pos new (anch_ne_nil hold) hp]
          obtain ⟨t, ht⟩ := hp
          have hdrop : (c :: rest).drop old.length = t := by
            rw [← ht, List.drop_left]
          rw [hdrop]
          rw [← ht] at h
          rcases infix_append_cases h with h2 | h2 |
            ⟨t1, u1, ht1, hu1, hLe, htx, huy⟩
          · exact absurd (Or.inl (anch_infix_pref hL hold h2)) hsh
          · have hlen : t.length ≤ n := by
              have h3 := congrArg List.length ht
              have h4 : 1 ≤ old.length := by
                obtain ⟨u, rfl, -⟩ := anch_cases hold
                simp
              simp only [List.length_append, List.length_cons] at h3 hs ⊢
              omega
            exact infix_append_left new (ih t hlen h2)
          · obtain ⟨ot, rfl, hot⟩ := anch_cases hold
            rcases List.suffix_cons_iff.mp htx with h3 | h3
            · refine absurd (Or.inr ⟨u1, ?_⟩) hsh
              rw [hLe, h3]
            · obtain ⟨lt, hLf, hlf⟩ := anch_cases hL
              match t1, ht1 with
              | a :: t12, _ =>
                have ha : a = 'f' := by
                  rw [hLe] at hLf
                  have := congrArg List.head? hLf
                  simpa using this
                exact absurd ha (hot a (h3.sublist.subset (by simp)))
        · rcases List.infix_cons_iff.mp h with h2 | h2
          · obtain ⟨lt, rfl, hlf⟩ := anch_cases hL
            rw [List.cons_prefix_cons] at h2
            obtain ⟨hf, h3⟩ := h2
            subst hf
            rw [replaceAll_neg new hp]
            exact (List.cons_prefix_cons.mpr
              ⟨rfl, ffree_pref_keep hold hlf h3⟩).isInfix
          · rw [replaceAll_neg new hp]
            have hlen : rest.length ≤ n := by
              simp only [List.length_cons] at hs
              omega
            exact infix_cons_ext (ih rest hlen h2)
  intro s
  exact main s.length s le_rfl

/-- Absence of an anchored string `L` is preserved by replacing an anchored
`old` with an anchored `new` that cannot share a prefix with `L`. -/
theorem absent_keep {L old new : List Char} (hL : anchored L)
    (hold : anchored old) (hnew : anchored new) (hsh : ¬ sharesPref L new) :
    ∀ s, ¬ L <:+: s → ¬ L <:+: replaceAll old new s := by
  have main : ∀ n s, s.length ≤ n → ¬ L <:+: s →
      ¬ L <:+: replaceAll old new s := by
    intro n
    induction n with
    | zero =>
      intro s hs h
      have h0 : s = [] := List.eq_nil_of_length_eq_zero (Nat.le_zero.mp hs)
      subst h0
      simpa using h
    | succ n ih =>
      intro s hs h
      match s with
      | [] => simpa using h
      | c :: rest =>
        by_cases hp : old <+: c :: rest
        · rw [replaceAll_pos new (anch_ne_nil hold) hp]
          obtain ⟨t, ht⟩ := hp
          have hdrop : (c :: rest).drop old.length = t := by
            rw [← ht, List.drop_left]
          rw [hdrop]
          have hnt : ¬ L <:+: t := by
            intro h2
            exact h (by rw [← ht]; exact infix_append_left old h2)
          have hlen : t.length ≤ n := by
            have h3 := congrArg List.length ht
            have h4 : 1 ≤ old.length := by
              obtain ⟨u, rfl, -⟩ := anch_cases hold
              simp
            simp only [List.length_append, List.length_cons] at h3 hs ⊢
            omega
          exact no_span_new hL hnew hsh (ih t hlen hnt)
        · rw [replaceAll_neg new hp]
          intro hcon
          rcases List.infix_cons_iff.mp hcon with h2 | h2
          · exact no_pref_scan hL hold hnew
              (fun h3 => h h3.isInfix) h2
          · have hlen : rest.length ≤ n := by
              simp only [List.length_cons] at hs
              omega
            exact ih rest hlen (fun h3 => h (infix_cons_ext h3)) h2
  intro s
  exact main s.length s le_rfl

/-- After `replaceAll old new s`, the replaced string `old` no longer occurs
anywhere, provided `old` and `new` are anchored and cannot share a prefix. -/
theorem self_removed {old new : List Char} (hold : anchored old)
    (hnew : anchored new) (hsh : ¬ sharesPref old new) :
    ∀ s, ¬ old <:+: replaceAll old new s := by
  have main : ∀ n s, s.length ≤ n → ¬ old <:+: replaceAll old new s := by
    intro n
    induction n with
    | zero =>
      intro s hs
      have h0 : s = [] := List.eq_nil_of_length_eq_zero (Nat.le_zero.mp hs)
      subst h0
      simpa using fun h => anch_ne_nil hold (List.sublist_nil.mp
        (List.IsInfix.sublist h))
    | succ n ih =>
      intro s hs
      match s with
      | [] =>
        simpa using fun h => anch_ne_nil hold (List.sublist_nil.mp
          (List.IsInfix.sublist h))
      | c :: rest =>
        by_cases hp : old <+: c :: rest
        · rw [replaceAll_pos new (anch_ne_nil hold) hp]
          obtain ⟨t, ht⟩ := hp
          have hdrop : (c :: rest).drop old.length = t := by
            rw [← ht, List.drop_left]
          rw [hdrop]
          have hlen : t.length ≤ n := by
            have h3 := congrArg List.length ht
            have h4 : 1 ≤ old.length := by
              obtain ⟨u, rfl, -⟩ := anch_cases hold
              simp
            simp only [List.length_append, List.length_cons] at h3 hs ⊢
            omega
          exact no_span_new hold hnew hsh (ih t hlen)
        · rw [replaceAll_neg new hp]
          intro hcon
          rcases List.infix_cons_iff.mp hcon with h2 | h2
          · exact no_pref_scan hold hold hnew hp h2
          · have hlen : rest.length ≤ n := by
              simp only [List.length_cons] at hs
              omega
            exact ih rest hlen h2
  intro s
  exact main s.length s le_rfl

/-- Two lists that disagree at some index cannot share a prefix. -/
theorem no_share_of_getElem {a b : List Char} {i : Nat} {x y : Char}
    (ha : a[i]? = some x) (hb : b[i]? = some y) (hxy : x ≠ y) :
    ¬ sharesPref a b := by
  rintro (⟨t, rfl⟩ | ⟨t, rfl⟩)
  · have hi : i < a.length := by
      rcases List.getElem?_eq_some.mp ha with ⟨h, -⟩
      exact h
    rw [List.getElem?_append_left hi, ha] at hb
    exact hxy (Option.some.inj hb)
  · have hi : i < b.length := by
      rcases List.getElem?_eq_some.mp hb with ⟨h, -⟩
      exact h
    rw [List.getElem?_append_left hi, hb] at ha
    exact hxy (Option.some.inj ha).symm

/-- An anchored occurrence survives dropping an `f`-free prefix of the text:
it must start beyond it. -/
theorem infix_drop_ffree {A : List Char} (hA : anchored A) :
    ∀ {B s : List Char}, fFree B → A <:+: s → B <+: s →
      A <:+: s.drop B.length := by
  intro B
  induction B with
  | nil =>
    intro s _ h _
    simpa using h
  | cons b B2 ih =>
    intro s hB hinf hpref
    match s, hpref with
    | s0 :: rest, hpref =>
      rw [List.cons_prefix_cons] at hpref
      obtain ⟨rfl, h2⟩ := hpref
      rcases List.infix_cons_iff.mp hinf with h3 | h3
      · obtain ⟨t, rfl, -⟩ := anch_cases hA
        rw [List.cons_prefix_cons] at h3
        exact absurd h3.1.symm (hB b (by simp))
      · simpa [List.drop_succ_cons] using ih (fFree_cons_down hB) h3 h2

/-- An occurrence of an anchored `A` in a text starting with a different
anchored `B` lies entirely beyond `B`. -/
theorem infix_drop_anch {A B s : List Char} (hA : anchored A)
    (hB : anchored B) (hsh : ¬ sharesPref A B) (hinf : A <:+: s)
    (hpref : B <+: s) : A <:+: s.drop B.length := by
  obtain ⟨bt, rfl, hbt⟩ := anch_cases hB
  match s, hpref with
  | s0 :: rest, hpref =>
    rw [List.cons_prefix_cons] at hpref
    obtain ⟨rfl, h2⟩ := hpref
    rcases List.infix_cons_iff.mp hinf with h3 | h3
    · exact absurd (pref_total h3 (List.cons_prefix_cons.mpr ⟨rfl, h2⟩)) hsh
    · simpa [List.drop_succ_cons] using infix_drop_ffree hA hbt h3 h2

/-! ## Facts about the matched texts -/

/-- Well-formedness of a pattern suffix: it starts with `@` and contains no
`f` and no quote characters (true of all four pattern suffixes). -/
def suffixOK (suffix : List Char) : Prop :=
  suffix.head? = some '@' ∧ fFree suffix

instance (suffix : List Char) : Decidable (suffixOK suffix) := by
  unfold suffixOK
  infer_instance

theorem litD_cons (suffix : List Char) :
    litD suffix = 'f' :: ('r' :: 'o' :: 'm' :: ' ' :: '"' :: suffix) := rfl

theorem litS_cons (suffix : List Char) :
    litS suffix = 'f' :: ('r' :: 'o' :: 'm' :: ' ' :: sq :: suffix) := rfl

theorem litD_anchored {suffix : List Char} (h : suffixOK suffix) :
    anchored (litD suffix) := by
  rw [anchored, litD_cons]
  refine ⟨rfl, ?_⟩
  intro c hc
  simp only [List.tail_cons, List.mem_cons] at hc
  rcases hc with rfl | rfl | rfl | rfl | rfl | hc
  · decide
  · decide
  · decide
  · decide
  · decide
  · exact h.2 c hc

theorem litS_anchored {suffix : List Char} (h : suffixOK suffix) :
    anchored (litS suffix) := by
  rw [anchored, litS_cons]
  refine ⟨rfl, ?_⟩
  intro c hc
  simp only [List.tail_cons, List.mem_cons] at hc
  rcases hc with rfl | rfl | rfl | rfl | rfl | hc
  · decide
  · decide
  · decide
  · decide
  · decide
  · exact h.2 c hc

theorem litD_getElem_five (suffix : List Char) :
    (litD suffix)[5]? = some '"' := by
  rw [litD_cons]
  simp

theorem litS_getElem_five (suffix : List Char) :
    (litS suffix)[5]? = some sq := by
  rw [litS_cons]
  simp

theorem litD_litS_no_share (suffix : List Char) :
    ¬ sharesPref (litD suffix) (litS suffix) :=
  no_share_of_getElem (litD_getElem_five suffix) (litS_getElem_five suffix)
    (by decide)

theorem litS_litD_no_share (suffix : List Char) :
    ¬ sharesPref (litS suffix) (litD suffix) :=
  no_share_of_getElem (litS_getElem_five suffix) (litD_getElem_five suffix)
    (by decide)

theorem tryMatch_eq_some {suffix s m : List Char}
    (h : tryMatch suffix s = some m) :
    (m = litD suffix ∧ litD suffix <+: s) ∨
      (m = litS suffix ∧ litS suffix <+: s) := by
  unfold tryMatch at h
  by_cases h1 : (litD suffix).isPrefixOf s
  · rw [if_pos h1] at h
    exact Or.inl ⟨(Option.some.inj h).symm, List.isPrefixOf_iff_prefix.mp h1⟩
  · rw [if_neg h1] at h
    by_cases h2 : (litS suffix).isPrefixOf s
    · rw [if_pos h2] at h
      exact Or.inr ⟨(Option.some.inj h).symm, List.isPrefixOf_iff_prefix.mp h2⟩
    · rw [if_neg h2] at h
      exact absurd h (by simp)

theorem tryMatch_eq_none {suffix s : List Char}
    (h : tryMatch suffix s = none) :
    ¬ litD suffix <+: s ∧ ¬ litS suffix <+: s := by
  unfold tryMatch at h
  by_cases h1 : (litD suffix).isPrefixOf s
  · rw [if_pos h1] at h
    exact absurd h (by simp)
  · rw [if_neg h1] at h
    by_cases h2 : (litS suffix).isPrefixOf s
    · rw [if_pos h2] at h
      exact absurd h (by simp)
    · exact ⟨fun hp => h1 (List.isPrefixOf_iff_prefix.mpr hp),
        fun hp => h2 (List.isPrefixOf_iff_prefix.mpr hp)⟩

theorem tryMatch_of_litD {suffix s : List Char}
    (h : litD suffix <+: s) : tryMatch suffix s = some (litD suffix) := by
  unfold tryMatch
  rw [if_pos (List.isPrefixOf_iff_prefix.mpr h)]

/-- Every text produced by the finditer scanner is one of the two literal
quote variants of the pattern. -/
theorem findMatches_mem {suffix s m : List Char}
    (h : m ∈ findMatches suffix s) :
    m = litD suffix ∨ m = litS suffix := by
  have main : ∀ n s, s.length ≤ n → m ∈ findMatches suffix s →
      m = litD suffix ∨ m = litS suffix := by
    intro n
    induction n with
    | zero =>
      intro s hs h
      have h0 : s = [] := List.eq_nil_of_length_eq_zero (Nat.le_zero.mp hs)
      subst h0
      simp at h
    | succ n ih =>
      intro s hs h
      match s with
      | [] => simp at h
      | c :: rest =>
        cases htm : tryMatch suffix (c :: rest) with
        | some m2 =>
          rw [findMatches_cons_some htm] at h
          rcases List.mem_cons.mp h with rfl | h2
          · rcases tryMatch_eq_some htm with ⟨rfl, -⟩ | ⟨rfl, -⟩
            · exact Or.inl rfl
            · exact Or.inr rfl
          · refine ih (rest.drop (m2.length - 1)) ?_ h2
            have := List.length_drop (m2.length - 1) rest
            simp only [List.length_cons] at hs
            omega
        | none =>
          rw [findMatches_cons_none htm] at h
          refine ih rest ?_ h
          simp only [List.length_cons] at hs
          omega
  exact main s.length s le_rfl h

/-- If neither quote variant occurs, the scanner finds nothing. -/
theorem findMatches_eq_nil {suffix s : List Char}
    (hD : ¬ litD suffix <:+: s) (hS : ¬ litS suffix <:+: s) :
    findMatches suffix s = [] := by
  induction s with
  | nil => rfl
  | cons c rest ih =>
    have hnone : tryMatch suffix (c :: rest) = none := by
      unfold tryMatch
      rw [if_neg fun hb =>
        hD (List.IsPrefix.isInfix (List.isPrefixOf_iff_prefix.mp hb))]
      rw [if_neg fun hb =>
        hS (List.IsPrefix.isInfix (List.isPrefixOf_iff_prefix.mp hb))]
    rw [findMatches_cons_none hnone]
    exact ih (fun h2 => hD (infix_cons_ext h2))
      (fun h2 => hS (infix_cons_ext h2))

theorem suffixOK_of_head_fFree {suffix : List Char}
    (h1 : suffix.head? = some '@') (h2 : fFree suffix) : suffixOK suffix :=
  ⟨h1, h2⟩

/-- Completeness of the scanner for the double-quote variant: if it occurs in
the text, its text is among the matches. -/
theorem litD_mem_findMatches {suffix s : List Char} (hsfx : suffixOK suffix)
    (h : litD suffix <:+: s) : litD suffix ∈ findMatches suffix s := by
  have hDa : anchored (litD suffix) := litD_anchored hsfx
  have hSa : anchored (litS suffix) := litS_anchored hsfx
  have main : ∀ n s, s.length ≤ n → litD suffix <:+: s →
      litD suffix ∈ findMatches suffix s := by
    intro n
    induction n with
    | zero =>
      intro s hs h
      have h0 : s = [] := List.eq_nil_of_length_eq_zero (Nat.le_zero.mp hs)
      subst h0
      exact absurd (List.sublist_nil.mp h.sublist) (anch_ne_nil hDa)
    | succ n ih =>
      intro s hs h
      match s with
      | [] => exact absurd (List.sublist_nil.mp h.sublist) (anch_ne_nil hDa)
      | c :: rest =>
        cases htm : tryMatch suffix (c :: rest) with
        | some m =>
          rw [findMatches_cons_some htm]
          rcases tryMatch_eq_some htm with ⟨rfl, hpre⟩ | ⟨rfl, hpre⟩
          · exact List.mem_cons_self _ _
          · refine List.mem_cons_of_mem _ ?_
            have hdrop : litD suffix <:+:
                (c :: rest).drop (litS suffix).length :=
              infix_drop_anch hDa hSa (litD_litS_no_share suffix) h hpre
            have hcons : (c :: rest).drop (litS suffix).length =
                rest.drop ((litS suffix).length - 1) := by
              obtain ⟨t, ht, -⟩ := anch_cases hSa
              rw [ht]
              simp [List.drop_succ_cons]
            rw [hcons] at hdrop
            refine ih _ ?_ hdrop
            have := List.length_drop ((litS suffix).length - 1) rest
            simp only [List.length_cons] at hs
            omega
        | none =>
          rw [findMatches_cons_none htm]
          rcases List.infix_cons_iff.mp h with h2 | h2
          · exact absurd h2 (tryMatch_eq_none htm).1
          · refine ih rest ?_ h2
            simp only [List.length_cons] at hs
            omega
  exact main s.length s le_rfl h

/-- Completeness of the scanner for the single-quote variant. -/
theorem litS_mem_findMatches {suffix s : List Char} (hsfx : suffixOK suffix)
    (h : litS suffix <:+: s) : litS suffix ∈ findMatches suffix s := by
  have hDa : anchored (litD suffix) := litD_anchored hsfx
  have hSa : anchored (litS suffix) := litS_anchored hsfx
  have main : ∀ n s, s.length ≤ n → litS suffix <:+: s →
      litS suffix ∈ findMatches suffix s := by
    intro n
    induction n with
    | zero =>
      intro s hs h
      have h0 : s = [] := List.eq_nil_of_length_eq_zero (Nat.le_zero.mp hs)
      subst h0
      exact absurd (List.sublist_nil.mp h.sublist) (anch_ne_nil hSa)
    | succ n ih =>
      intro s hs h
      match s with
      | [] => exact absurd (List.sublist_nil.mp h.sublist) (anch_ne_nil hSa)
      | c :: rest =>
        cases htm : tryMatch suffix (c :: rest) with
        | some m =>
          rw [findMatches_cons_some htm]
          rcases tryMatch_eq_some htm with ⟨rfl, hpre⟩ | ⟨rfl, hpre⟩
          · refine List.mem_cons_of_mem _ ?_
            have hdrop : litS suffix <:+:
                (c :: rest).drop (litD suffix).length :=
              infix_drop_anch hSa hDa (litS_litD_no_share suffix) h hpre
            have hcons : (c :: rest).drop (litD suffix).length =
                rest.drop ((litD suffix).length - 1) := by
              obtain ⟨t, ht, -⟩ := anch_cases hDa
              rw [ht]
              simp [List.drop_succ_cons]
            rw [hcons] at hdrop
            refine ih _ ?_ hdrop
            have := List.length_drop ((litD suffix).length - 1) rest
            simp only [List.length_cons] at hs
            omega
          · exact List.mem_cons_self _ _
        | none =>
          rw [findMatches_cons_none htm]
          rcases List.infix_cons_iff.mp h with h2 | h2
          · exact absurd h2 (tryMatch_eq_none htm).2
          · refine ih rest ?_ h2
            simp only [List.length_cons] at hs
            omega
  exact main s.length s le_rfl h

/-! ## The replacement texts -/

/-- The replacement of a double-quoted match: `from "<rel>/<tail>`. -/
def newImpD (rel stail : List Char) : List Char :=
  "from \"".toList ++ (rel ++ '/' :: stail)

/-- The replacement of a single-quoted match: `from '<rel>/<tail>`. -/
def newImpS (rel stail : List Char) : List Char :=
  "from ".toList ++ sq :: (rel ++ '/' :: stail)

theorem newImportOf_litD {rel stail : List Char} (hst : '@' ∉ stail) :
    newImportOf rel (litD ('@' :: '/' :: stail)) = newImpD rel stail := by
  have hni : ¬ "@/".toList <:+: stail := fun h =>
    hst (h.sublist.subset (show '@' ∈ "@/".toList by decide))
  unfold newImportOf
  rw [litD_cons]
  rw [replaceAll_neg _ (by simp [List.cons_prefix_cons])]
  rw [replaceAll_neg _ (by simp [List.cons_prefix_cons])]
  rw [replaceAll_neg _ (by simp [List.cons_prefix_cons])]
  rw [replaceAll_neg _ (by simp [List.cons_prefix_cons])]
  rw [replaceAll_neg _ (by simp [List.cons_prefix_cons])]
  rw [replaceAll_neg _ (by simp [List.cons_prefix_cons])]
  rw [replaceAll_pos _ (by decide) ⟨stail, rfl⟩]
  rw [show ('@' :: '/' :: stail).drop ("@/".toList).length = stail from rfl]
  rw [replaceAll_not_occ hni]
  simp [newImpD]

theorem newImportOf_litS {rel stail : List Char} (hst : '@' ∉ stail) :
    newImportOf rel (litS ('@' :: '/' :: stail)) = newImpS rel stail := by
  have hni : ¬ "@/".toList <:+: stail := fun h =>
    hst (h.sublist.subset (show '@' ∈ "@/".toList by decide))
  unfold newImportOf
  rw [litS_cons]
  rw [replaceAll_neg _ (by simp [List.cons_prefix_cons])]
  rw [replaceAll_neg _ (by simp [List.cons_prefix_cons])]
  rw [replaceAll_neg _ (by simp [List.cons_prefix_cons])]
  rw [replaceAll_neg _ (by simp [List.cons_prefix_cons])]
  rw [replaceAll_neg _ (by simp [List.cons_prefix_cons])]
  rw [replaceAll_neg _ (by simp [List.cons_prefix_cons, sq])]
  rw [replaceAll_pos _ (by decide) ⟨stail, rfl⟩]
  rw [show ('@' :: '/' :: stail).drop ("@/".toList).length = stail from rfl]
  rw [replaceAll_not_occ hni]
  simp [newImpS]

theorem newImpD_anchored {rel stail : List Char} (hrel : fFree rel)
    (hst : fFree stail) : anchored (newImpD rel stail) := by
  rw [anchored,
    show newImpD rel stail =
      'f' :: ('r' :: 'o' :: 'm' :: ' ' :: '"' :: (rel ++ '/' :: stail))
      from rfl]
  refine ⟨rfl, ?_⟩
  intro c hc
  simp only [List.tail_cons, List.mem_cons] at hc
  rcases hc with rfl | rfl | rfl | rfl | rfl | hc
  · decide
  · decide
  · decide
  · decide
  · decide
  · rcases List.mem_append.mp hc with hc | hc
    · exact hrel c hc
    · rcases List.mem_cons.mp hc with rfl | hc
      · decide
      · exact hst c hc

theorem newImpS_anchored {rel stail : List Char} (hrel : fFree rel)
    (hst : fFree stail) : anchored (newImpS rel stail) := by
  rw [anchored,
    show newImpS rel stail =
      'f' :: ('r' :: 'o' :: 'm' :: ' ' :: sq :: (rel ++ '/' :: stail))
      from rfl]
  refine ⟨rfl, ?_⟩
  intro c hc
  simp only [List.tail_cons, List.mem_cons] at hc
  rcases hc with rfl | rfl | rfl | rfl | rfl | hc
  · decide
  · decide
  · decide
  · decide
  · decide
  · rcases List.mem_append.mp hc with hc | hc
    · exact hrel c hc
    · rcases List.mem_cons.mp hc with rfl | hc
      · decide
      · exact hst c hc

theorem newImpD_getElem_six {rel stail : List Char}
    (h : rel.head? = some '.') : (newImpD rel stail)[6]? = some '.' := by
  match rel, h with
  | r0 :: rel2, h =>
    have hr : r0 = '.' := by simpa using h
    subst hr
    rw [show newImpD ('.' :: rel2) stail =
      'f' :: 'r' :: 'o' :: 'm' :: ' ' :: '"' :: '.' :: (rel2 ++ '/' :: stail)
      from rfl]
    simp

theorem newImpS_getElem_six {rel stail : List Char}
    (h : rel.head? = some '.') : (newImpS rel stail)[6]? = some '.' := by
  match rel, h with
  | r0 :: rel2, h =>
    have hr : r0 = '.' := by simpa using h
    subst hr
    rw [show newImpS ('.' :: rel2) stail =
      'f' :: 'r' :: 'o' :: 'm' :: ' ' :: sq :: '.' :: (rel2 ++ '/' :: stail)
      from rfl]
    simp

theorem litD_getElem_six (stail : List Char) :
    (litD ('@' :: '/' :: stail))[6]? = some '@' := by
  rw [litD_cons]
  simp

theorem litS_getElem_six (stail : List Char) :
    (litS ('@' :: '/' :: stail))[6]? = some '@' := by
  rw [litS_cons]
  simp

/-! ## The computed relative paths -/

theorem commonPrefixLen_append (w a b : List String) :
    commonPrefixLen (w ++ a) (w ++ b) = w.length + commonPrefixLen a b := by
  induction w with
  | nil => simp
  | cons x w ih =>
    show commonPrefixLen (x :: (w ++ a)) (x :: (w ++ b)) = _
    rw [show commonPrefixLen (x :: (w ++ a)) (x :: (w ++ b)) =
      if x = x then commonPrefixLen (w ++ a) (w ++ b) + 1 else 0 from rfl]
    rw [if_pos rfl, ih]
    simp only [List.length_cons]
    omega

theorem drop_append_add {α : Type} (w a : List α) (k : Nat) :
    (w ++ a).drop (w.length + k) = a.drop k := by
  rw [← List.drop_drop, List.drop_left]

theorem relpathComps_cancel (w a b : List String) :
    relpathComps (w ++ a) (w ++ b) = relpathComps a b := by
  simp only [relpathComps, commonPrefixLen_append, drop_append_add,
    List.length_append]
  have he : w.length + b.length - (w.length + commonPrefixLen a b) =
      b.length - commonPrefixLen a b := by
    omega
  rw [he]

theorem relpath_cancel (w a b : List String) :
    relpath (w ++ a) (w ++ b) = relpath a b := by
  unfold relpath
  rw [relpathComps_cancel]

theorem joinSlash_mem {c : Char} :
    ∀ {L : List (List Char)}, c ∈ joinSlash L → c = '/' ∨ ∃ x ∈ L, c ∈ x := by
  intro L
  induction L with
  | nil =>
    intro h
    simp [joinSlash] at h
  | cons x xs ih =>
    intro h
    cases xs with
    | nil => exact Or.inr ⟨x, by simp, by simpa [joinSlash] using h⟩
    | cons y xs2 =>
      rw [show joinSlash (x :: y :: xs2) = x ++ '/' :: joinSlash (y :: xs2)
        from rfl] at h
      rcases List.mem_append.mp h with h | h
      · exact Or.inr ⟨x, by simp, h⟩
      · rcases List.mem_cons.mp h with rfl | h
        · exact Or.inl rfl
        · rcases ih h with h | ⟨z, hz, hc⟩
          · exact Or.inl h
          · exact Or.inr ⟨z, List.mem_cons_of_mem _ hz, hc⟩

/-- Characters of a replacement result come from the text or the new part. -/
theorem replaceAll_mem {old new : List Char} {c : Char} (hne : old ≠ []) :
    ∀ s, c ∈ replaceAll old new s → c ∈ new ∨ c ∈ s := by
  have main : ∀ n s, s.length ≤ n → c ∈ replaceAll old new s →
      c ∈ new ∨ c ∈ s := by
    intro n
    induction n with
    | zero =>
      intro s hs h
      have h0 : s = [] := List.eq_nil_of_length_eq_zero (Nat.le_zero.mp hs)
      subst h0
      simp at h
    | succ n ih =>
      intro s hs h
      match s with
      | [] => simp at h
      | c0 :: rest =>
        by_cases hp : old <+: c0 :: rest
        · rw [replaceAll_pos new hne hp] at h
          rcases List.mem_append.mp h with h | h
          · exact Or.inl h
          · have hlen : ((c0 :: rest).drop old.length).length ≤ n := by
              have hol : 1 ≤ old.length := by
                cases old
                · exact absurd rfl hne
                · simp
              simp only [List.length_drop, List.length_cons] at hs ⊢
              omega
            rcases ih _ hlen h with h | h
            · exact Or.inl h
            · exact Or.inr ((List.drop_subset _ _) h)
        · rw [replaceAll_neg new hp] at h
          rcases List.mem_cons.mp h with rfl | h
          · exact Or.inr (by simp)
          · have hlen : rest.length ≤ n := by
              simp only [List.length_cons] at hs
              omega
            rcases ih rest hlen h with h | h
            · exact Or.inl h
            · exact Or.inr (List.mem_cons_of_mem _ h)
  intro s
  exact main s.length s le_rfl

theorem relpath_mem {c : Char} (path start : List String)
    (h : c ∈ relpath path start) :
    c = '.' ∨ c = '/' ∨ ∃ x ∈ path, c ∈ x.toList := by
  unfold relpath at h
  by_cases he : (relpathComps path start).isEmpty
  · rw [if_pos he] at h
    rcases List.mem_singleton.mp h with rfl
    exact Or.inl rfl
  · rw [if_neg he] at h
    rcases joinSlash_mem h with h | ⟨x, hx, hc⟩
    · exact Or.inr (Or.inl h)
    · rcases List.mem_map.mp hx with ⟨comp, hcomp, rfl⟩
      unfold relpathComps at hcomp
      rcases List.mem_append.mp hcomp with hcomp | hcomp
      · rcases (List.mem_replicate.mp hcomp).2 with rfl
        have hdot : c = '.' := by simpa using hc
        exact Or.inl hdot
      · exact Or.inr (Or.inr ⟨comp, (List.drop_subset _ _) hcomp, hc⟩)

/-- The relative path computed for a target `<cwd>/src/<t>` is always
non-empty, starts with `.` and draws its characters from `.`, `/`, `src` and
`t` — in particular it contains no `f`, `@`, quote or backslash when `t` has
none. -/
theorem rel_facts (cwd p : List String) (t : String) :
    ∃ rel, get_relative_path cwd p ((cwd ++ ["src"]) ++ [t]) = some rel ∧
      rel ≠ [] ∧ rel.head? = some '.' ∧
      ∀ c ∈ rel, c = '.' ∨ c = '/' ∨ c ∈ "src".toList ∨ c ∈ t.toList := by
  have hassoc : (cwd ++ ["src"]) ++ [t] = cwd ++ ["src", t] := by
    simp
  have hchars : ∀ c ∈ replaceAll ['\\'] ['/']
      (relpath ((cwd ++ ["src"]) ++ [t]) (cwd ++ p.dropLast)),
      c = '.' ∨ c = '/' ∨ c ∈ "src".toList ∨ c ∈ t.toList := by
    intro c hc
    rcases replaceAll_mem (by simp) _ hc with hc | hc
    · rcases List.mem_singleton.mp hc with rfl
      exact Or.inr (Or.inl rfl)
    · rw [hassoc, relpath_cancel] at hc
      rcases relpath_mem _ _ hc with h | h | ⟨x, hx, hcx⟩
      · exact Or.inl h
      · exact Or.inr (Or.inl h)
      · rcases List.mem_cons.mp hx with rfl | hx2
        · exact Or.inr (Or.inr (Or.inl hcx))
        · rcases List.mem_singleton.mp hx2 with rfl
          exact Or.inr (Or.inr (Or.inr hcx))
  set rel0 := replaceAll ['\\'] ['/']
    (relpath ((cwd ++ ["src"]) ++ [t]) (cwd ++ p.dropLast)) with hrel0
  have hdef : get_relative_path cwd p ((cwd ++ ["src"]) ++ [t]) =
      some (if rel0.head? = some '.' then rel0 else '.' :: '/' :: rel0) := rfl
  by_cases hh : rel0.head? = some '.'
  · refine ⟨rel0, by rw [hdef, if_pos hh], ?_, hh, hchars⟩
    intro h0
    rw [h0] at hh
    simp at hh
  · refine ⟨'.' :: '/' :: rel0, by rw [hdef, if_neg hh], by simp, by simp, ?_⟩
    intro c hc
    rcases List.mem_cons.mp hc with rfl | hc
    · exact Or.inl rfl
    · rcases List.mem_cons.mp hc with rfl | hc
      · exact Or.inr (Or.inl rfl)
      · exact hchars c hc

/-! ## One pattern pass -/

/-- One per-match fold step of `fix_imports`, with the relative path fixed
(the script recomputes it per match, always with the same result). -/
def stepRepl (rel c old : List Char) : List Char :=
  replaceAll old (newImportOf rel old) c

/-- One pattern pass of `fix_imports`, with the relative path fixed. -/
def passFold (suffix rel content : List Char) : List Char :=
  (findMatches suffix content).foldl (stepRepl rel) content

theorem applyPattern_eq {g : List String → List String → Option (List Char)}
    {cwd file_path : List String} {rel : List Char} (content : List Char)
    {pt : List Char × String}
    (hg : g file_path ((cwd ++ ["src"]) ++ [pt.2]) = some rel)
    (hne : rel ≠ []) :
    applyPattern g cwd file_path content pt = passFold pt.1 rel content := by
  unfold applyPattern passFold stepRepl
  have hie : rel.isEmpty = false := by
    cases rel
    · exact absurd rfl hne
    · rfl
  simp only [hg, hie, Bool.false_eq_true, if_false]

theorem suffixOK_pat {stail : List Char} (hstf : fFree stail) :
    suffixOK ('@' :: '/' :: stail) := by
  refine ⟨rfl, ?_⟩
  intro c hc
  rcases List.mem_cons.mp hc with rfl | hc
  · decide
  · rcases List.mem_cons.mp hc with rfl | hc
    · decide
    · exact hstf c hc

theorem litD_getElem_six' {suffix : List Char} (h : suffix.head? = some '@') :
    (litD suffix)[6]? = some '@' := by
  rw [litD_cons]
  simpa [List.head?_eq_getElem?] using h

theorem litS_getElem_six' {suffix : List Char} (h : suffix.head? = some '@') :
    (litS suffix)[6]? = some '@' := by
  rw [litS_cons]
  simpa [List.head?_eq_getElem?] using h

/-- The characters needed to tell replacement texts and match texts apart. -/
theorem at_ne_dot : ('@' : Char) ≠ '.' := by decide

theorem lit_nid_no_share_D {suffix2 rel stail : List Char}
    (h2 : suffix2.head? = some '@') (hrh : rel.head? = some '.') :
    ¬ sharesPref (litD suffix2) (newImpD rel stail) :=
  no_share_of_getElem (litD_getElem_six' h2) (newImpD_getElem_six hrh)
    at_ne_dot

theorem lit_nis_no_share_D {suffix2 rel stail : List Char}
    (h2 : suffix2.head? = some '@') (hrh : rel.head? = some '.') :
    ¬ sharesPref (litD suffix2) (newImpS rel stail) :=
  no_share_of_getElem (litD_getElem_six' h2) (newImpS_getElem_six hrh)
    at_ne_dot

theorem lit_nid_no_share_S {suffix2 rel stail : List Char}
    (h2 : suffix2.head? = some '@') (hrh : rel.head? = some '.') :
    ¬ sharesPref (litS suffix2) (newImpD rel stail) :=
  no_share_of_getElem (litS_getElem_six' h2) (newImpD_getElem_six hrh)
    at_ne_dot

theorem lit_nis_no_share_S {suffix2 rel stail : List Char}
    (h2 : suffix2.head? = some '@') (hrh : rel.head? = some '.') :
    ¬ sharesPref (litS suffix2) (newImpS rel stail) :=
  no_share_of_getElem (litS_getElem_six' h2) (newImpS_getElem_six hrh)
    at_ne_dot

theorem nid_lit_no_share_D {suffix2 rel stail : List Char}
    (h2 : suffix2.head? = some '@') (hrh : rel.head? = some '.') :
    ¬ sharesPref (newImpD rel stail) (litD suffix2) :=
  no_share_of_getElem (newImpD_getElem_six hrh) (litD_getElem_six' h2)
    at_ne_dot.symm

theorem nid_lit_no_share_S {suffix2 rel stail : List Char}
    (h2 : suffix2.head? = some '@') (hrh : rel.head? = some '.') :
    ¬ sharesPref (newImpD rel stail) (litS suffix2) :=
  no_share_of_getElem (newImpD_getElem_six hrh) (litS_getElem_six' h2)
    at_ne_dot.symm

theorem nis_lit_no_share_D {suffix2 rel stail : List Char}
    (h2 : suffix2.head? = some '@') (hrh : rel.head? = some '.') :
    ¬ sharesPref (newImpS rel stail) (litD suffix2) :=
  no_share_of_getElem (newImpS_getElem_six hrh) (litD_getElem_six' h2)
    at_ne_dot.symm

theorem nis_lit_no_share_S {suffix2 rel stail : List Char}
    (h2 : suffix2.head? = some '@') (hrh : rel.head? = some '.') :
    ¬ sharesPref (newImpS rel stail) (litS suffix2) :=
  no_share_of_getElem (newImpS_getElem_six hrh) (litS_getElem_six' h2)
    at_ne_dot.symm

theorem stepRepl_litD {rel stail : List Char} (hstat : '@' ∉ stail)
    (c : List Char) :
    stepRepl rel c (litD ('@' :: '/' :: stail)) =
      replaceAll (litD ('@' :: '/' :: stail)) (newImpD rel stail) c := by
  unfold stepRepl
  rw [newImportOf_litD hstat]

theorem stepRepl_litS {rel stail : List Char} (hstat : '@' ∉ stail)
    (c : List Char) :
    stepRepl rel c (litS ('@' :: '/' :: stail)) =
      replaceAll (litS ('@' :: '/' :: stail)) (newImpS rel stail) c := by
  unfold stepRepl
  rw [newImportOf_litS hstat]

theorem litD_ne_litS {suffix : List Char} : litD suffix ≠ litS suffix := by
  intro h
  have h5 : (litD suffix)[5]? = (litS suffix)[5]? := by rw [h]
  rw [litD_getElem_five, litS_getElem_five] at h5
  exact absurd (Option.some.inj h5) (by decide)

theorem fold_keep_present {stail rel L : List Char} (hstf : fFree stail)
    (hL : anchored L)
    (hshD : ¬ sharesPref L (litD ('@' :: '/' :: stail)))
    (hshS : ¬ sharesPref L (litS ('@' :: '/' :: stail))) :
    ∀ (ms : List (List Char)) (c : List Char),
      (∀ m ∈ ms, m = litD ('@' :: '/' :: stail) ∨
        m = litS ('@' :: '/' :: stail)) →
      L <:+: c → L <:+: ms.foldl (stepRepl rel) c := by
  have hsfx := suffixOK_pat hstf
  intro ms
  induction ms with
  | nil =>
    intro c _ h
    simpa using h
  | cons m ms ih =>
    intro c hm h
    rw [List.foldl_cons]
    refine ih _ (fun x hx => hm x (List.mem_cons_of_mem _ hx)) ?_
    rcases hm m (List.mem_cons_self _ _) with rfl | rfl
    · exact preserve_occurrence hL (litD_anchored hsfx) hshD c h
    · exact preserve_occurrence hL (litS_anchored hsfx) hshS c h

theorem fold_keep_absent {stail rel L : List Char} (hstf : fFree stail)
    (hstat : '@' ∉ stail) (hrf : fFree rel) (hL : anchored L)
    (hshD : ¬ sharesPref L (newImpD rel stail))
    (hshS : ¬ sharesPref L (newImpS rel stail)) :
    ∀ (ms : List (List Char)) (c : List Char),
      (∀ m ∈ ms, m = litD ('@' :: '/' :: stail) ∨
        m = litS ('@' :: '/' :: stail)) →
      ¬ L <:+: c → ¬ L <:+: ms.foldl (stepRepl rel) c := by
  have hsfx := suffixOK_pat hstf
  intro ms
  induction ms with
  | nil =>
    intro c _ h
    simpa using h
  | cons m ms ih =>
    intro c hm h
    rw [List.foldl_cons]
    refine ih _ (fun x hx => hm x (List.mem_cons_of_mem _ hx)) ?_
    rcases hm m (List.mem_cons_self _ _) with rfl | rfl
    · rw [stepRepl_litD hstat]
      exact absent_keep hL (litD_anchored hsfx)
        (newImpD_anchored hrf hstf) hshD c h
    · rw [stepRepl_litS hstat]
      exact absent_keep hL (litS_anchored hsfx)
        (newImpS_anchored hrf hstf) hshS c h

theorem fold_removes_D {stail rel : List Char} (hstf : fFree stail)
    (hstat : '@' ∉ stail) (hrf : fFree rel) (hrh : rel.head? = some '.') :
    ∀ (ms : List (List Char)) (c : List Char),
      (∀ m ∈ ms, m = litD ('@' :: '/' :: stail) ∨
        m = litS ('@' :: '/' :: stail)) →
      (litD ('@' :: '/' :: stail) ∈ ms ∨
        ¬ litD ('@' :: '/' :: stail) <:+: c) →
      ¬ litD ('@' :: '/' :: stail) <:+: ms.foldl (stepRepl rel) c := by
  have hsfx := suffixOK_pat hstf
  intro ms
  induction ms with
  | nil =>
    intro c _ hcase
    rcases hcase with h | h
    · simp at h
    · simpa using h
  | cons m ms ih =>
    intro c hm hcase
    rw [List.foldl_cons]
    have hmv := hm m (List.mem_cons_self _ _)
    have hmtail : ∀ x ∈ ms, x = litD ('@' :: '/' :: stail) ∨
        x = litS ('@' :: '/' :: stail) :=
      fun x hx => hm x (List.mem_cons_of_mem _ hx)
    by_cases hmd : m = litD ('@' :: '/' :: stail)
    · subst hmd
      refine ih _ hmtail (Or.inr ?_)
      rw [stepRepl_litD hstat]
      exact self_removed (litD_anchored hsfx) (newImpD_anchored hrf hstf)
        (lit_nid_no_share_D rfl hrh) c
    · have hms : m = litS ('@' :: '/' :: stail) := by
        rcases hmv with h | h
        · exact absurd h hmd
        · exact h
      subst hms
      rcases hcase with hmem | habs
      · have hmem2 : litD ('@' :: '/' :: stail) ∈ ms := by
          rcases List.mem_cons.mp hmem with h | h
          · exact absurd h litD_ne_litS
          · exact h
        exact ih _ hmtail (Or.inl hmem2)
      · refine ih _ hmtail (Or.inr ?_)
        rw [stepRepl_litS hstat]
        exact absent_keep (litD_anchored hsfx) (litS_anchored hsfx)
          (newImpS_anchored hrf hstf) (lit_nis_no_share_D rfl hrh) c habs

theorem fold_removes_S {stail rel : List Char} (hstf : fFree stail)
    (hstat : '@' ∉ stail) (hrf : fFree rel) (hrh : rel.head? = some '.') :
    ∀ (ms : List (List Char)) (c : List Char),
      (∀ m ∈ ms, m = litD ('@' :: '/' :: stail) ∨
        m = litS ('@' :: '/' :: stail)) →
      (litS ('@' :: '/' :: stail) ∈ ms ∨
        ¬ litS ('@' :: '/' :: stail) <:+: c) →
      ¬ litS ('@' :: '/' :: stail) <:+: ms.foldl (stepRepl rel) c := by
  have hsfx := suffixOK_pat hstf
  intro ms
  induction ms with
  | nil =>
    intro c _ hcase
    rcases hcase with h | h
    · simp at h
    · simpa using h
  | cons m ms ih =>
    intro c hm hcase
    rw [List.foldl_cons]
    have hmv := hm m (List.mem_cons_self _ _)
    have hmtail : ∀ x ∈ ms, x = litD ('@' :: '/' :: stail) ∨
        x = litS ('@' :: '/' :: stail) :=
      fun x hx => hm x (List.mem_cons_of_mem _ hx)
    by_cases hms : m = litS ('@' :: '/' :: stail)
    · subst hms
      refine ih _ hmtail (Or.inr ?_)
      rw [stepRepl_litS hstat]
      exact self_removed (litS_anchored hsfx) (newImpS_anchored hrf hstf)
        (lit_nis_no_share_S rfl hrh) c
    · have hmd : m = litD ('@' :: '/' :: stail) := by
        rcases hmv with h | h
        · exact h
        · exact absurd h hms
      subst hmd
      rcases hcase with hmem | habs
      · have hmem2 : litS ('@' :: '/' :: stail) ∈ ms := by
          rcases List.mem_cons.mp hmem with h | h
          · exact absurd h.symm litD_ne_litS
          · exact h
        exact ih _ hmtail (Or.inl hmem2)
      · refine ih _ hmtail (Or.inr ?_)
        rw [stepRepl_litD hstat]
        exact absent_keep (litS_anchored hsfx) (litD_anchored hsfx)
          (newImpD_anchored hrf hstf) (lit_nid_no_share_S rfl hrh) c habs

theorem fold_makes_D {stail rel : List Char} (hstf : fFree stail)
    (hstat : '@' ∉ stail) (hrf : fFree rel) (hrh : rel.head? = some '.') :
    ∀ (ms : List (List Char)) (c : List Char),
      (∀ m ∈ ms, m = litD ('@' :: '/' :: stail) ∨
        m = litS ('@' :: '/' :: stail)) →
      litD ('@' :: '/' :: stail) ∈ ms → litD ('@' :: '/' :: stail) <:+: c →
      newImpD rel stail <:+: ms.foldl (stepRepl rel) c := by
  have hsfx := suffixOK_pat hstf
  intro ms
  induction ms with
  | nil =>
    intro c _ h _
    simp at h
  | cons m ms ih =>
    intro c hm hmem hpres
    rw [List.foldl_cons]
    have hmtail : ∀ x ∈ ms, x = litD ('@' :: '/' :: stail) ∨
        x = litS ('@' :: '/' :: stail) :=
      fun x hx => hm x (List.mem_cons_of_mem _ hx)
    by_cases hmd : m = litD ('@' :: '/' :: stail)
    · subst hmd
      have hnew : newImpD rel stail <:+:
          stepRepl rel c (litD ('@' :: '/' :: stail)) := by
        rw [stepRepl_litD hstat]
        exact new_infix_replaceAll (anch_ne_nil (litD_anchored hsfx)) hpres
      exact fold_keep_present hstf (newImpD_anchored hrf hstf)
        (nid_lit_no_share_D rfl hrh) (nid_lit_no_share_S rfl hrh)
        ms _ hmtail hnew
    · have hms : m = litS ('@' :: '/' :: stail) := by
        rcases hm m (List.mem_cons_self _ _) with h | h
        · exact absurd h hmd
        · exact h
      subst hms
      have hmem2 : litD ('@' :: '/' :: stail) ∈ ms := by
        rcases List.mem_cons.mp hmem with h | h
        · exact absurd h litD_ne_litS
        · exact h
      refine ih _ hmtail hmem2 ?_
      exact preserve_occurrence (litD_anchored hsfx) (litS_anchored hsfx)
        (litD_litS_no_share _) c hpres

/-! ### Pass-level wrappers -/

theorem pass_keep_present {stail rel L : List Char} (hstf : fFree stail)
    (hL : anchored L)
    (hshD : ¬ sharesPref L (litD ('@' :: '/' :: stail)))
    (hshS : ¬ sharesPref L (litS ('@' :: '/' :: stail)))
    (content : List Char) (h : L <:+: content) :
    L <:+: passFold ('@' :: '/' :: stail) rel content :=
  fold_keep_present hstf hL hshD hshS _ content
    (fun _ hm => findMatches_mem hm) h

theorem pass_keep_absent {stail rel L : List Char} (hstf : fFree stail)
    (hstat : '@' ∉ stail) (hrf : fFree rel) (hL : anchored L)
    (hshD : ¬ sharesPref L (newImpD rel stail))
    (hshS : ¬ sharesPref L (newImpS rel stail))
    (content : List Char) (h : ¬ L <:+: content) :
    ¬ L <:+: passFold ('@' :: '/' :: stail) rel content :=
  fold_keep_absent hstf hstat hrf hL hshD hshS _ content
    (fun _ hm => findMatches_mem hm) h

theorem pass_removes {stail rel : List Char} (hstf : fFree stail)
    (hstat : '@' ∉ stail) (hrf : fFree rel) (hrh : rel.head? = some '.')
    (content : List Char) :
    ¬ litD ('@' :: '/' :: stail) <:+:
        passFold ('@' :: '/' :: stail) rel content ∧
      ¬ litS ('@' :: '/' :: stail) <:+:
        passFold ('@' :: '/' :: stail) rel content := by
  have hsfx := suffixOK_pat hstf
  constructor
  · by_cases h : litD ('@' :: '/' :: stail) <:+: content
    · exact fold_removes_D hstf hstat hrf hrh _ content
        (fun _ hm => findMatches_mem hm)
        (Or.inl (litD_mem_findMatches hsfx h))
    · exact fold_removes_D hstf hstat hrf hrh _ content
        (fun _ hm => findMatches_mem hm) (Or.inr h)
  · by_cases h : litS ('@' :: '/' :: stail) <:+: content
    · exact fold_removes_S hstf hstat hrf hrh _ content
        (fun _ hm => findMatches_mem hm)
        (Or.inl (litS_mem_findMatches hsfx h))
    · exact fold_removes_S hstf hstat hrf hrh _ content
        (fun _ hm => findMatches_mem hm) (Or.inr h)

theorem pass_makes {stail rel : List Char} (hstf : fFree stail)
    (hstat : '@' ∉ stail) (hrf : fFree rel) (hrh : rel.head? = some '.')
    (content : List Char) (h : litD ('@' :: '/' :: stail) <:+: content) :
    newImpD rel stail <:+: passFold ('@' :: '/' :: stail) rel content :=
  fold_makes_D hstf hstat hrf hrh _ content (fun _ hm => findMatches_mem hm)
    (litD_mem_findMatches (suffixOK_pat hstf) h) h

/-- A pass on content free of both its match texts is the identity. -/
theorem pass_noop {stail rel : List Char}
    (hD : ¬ litD ('@' :: '/' :: stail) <:+: content)
    (hS : ¬ litS ('@' :: '/' :: stail) <:+: content) :
    passFold ('@' :: '/' :: stail) rel content = content := by
  unfold passFold
  rw [findMatches_eq_nil hD hS]
  rfl

/-! ## The four passes of `fix_imports` -/

theorem rel_facts_clean (cwd p : List String) (t : String)
    (ht : ∀ c ∈ t.toList, c ≠ 'f' ∧ c ≠ '@') :
    ∃ rel, get_relative_path cwd p ((cwd ++ ["src"]) ++ [t]) = some rel ∧
      rel ≠ [] ∧ rel.head? = some '.' ∧ fFree rel ∧ '@' ∉ rel := by
  obtain ⟨rel, hg, hne, hh, hchars⟩ := rel_facts cwd p t
  refine ⟨rel, hg, hne, hh, ?_, ?_⟩
  · intro c hc
    rcases hchars c hc with rfl | rfl | h | h
    · decide
    · decide
    · simp only [String.toList] at h
      have h2 : c = 's' ∨ c = 'r' ∨ c = 'c' := by
        simp only [show "src".data = ['s', 'r', 'c'] from rfl,
          List.mem_cons, List.not_mem_nil, or_false] at h
        exact h
      rcases h2 with rfl | rfl | rfl <;> decide
    · exact (ht c h).1
  · intro hc
    rcases hchars '@' hc with h | h | h | h
    · exact absurd h (by decide)
    · exact absurd h (by decide)
    · have h2 : ('@' : Char) ∈ ['s', 'r', 'c'] := h
      rcases List.mem_cons.mp h2 with h3 | h3
      · exact absurd h3 (by decide)
      · rcases List.mem_cons.mp h3 with h4 | h4
        · exact absurd h4 (by decide)
        · exact absurd (List.mem_singleton.mp h4) (by decide)
    · exact (ht '@' h).2 rfl

theorem fix_imports_unfold (cwd p : List String) (c : List Char)
    {relC relL relX relT : List Char}
    (hgC : get_relative_path cwd p ((cwd ++ ["src"]) ++ ["components"]) =
      some relC) (hneC : relC ≠ [])
    (hgL : get_relative_path cwd p ((cwd ++ ["src"]) ++ ["lib"]) = some relL)
    (hneL : relL ≠ [])
    (hgX : get_relative_path cwd p ((cwd ++ ["src"]) ++ ["context"]) =
      some relX) (hneX : relX ≠ [])
    (hgT : get_relative_path cwd p ((cwd ++ ["src"]) ++ ["types"]) =
      some relT) (hneT : relT ≠ []) :
    (fix_imports cwd p c).1 =
      passFold ('@' :: '/' :: "types".toList) relT
        (passFold ('@' :: '/' :: "context/".toList) relX
          (passFold ('@' :: '/' :: "lib/".toList) relL
            (passFold ('@' :: '/' :: "components/".toList) relC c))) := by
  show fix_imports_core (get_relative_path cwd) cwd p c = _
  unfold fix_imports_core patterns
  rw [List.foldl_cons, List.foldl_cons, List.foldl_cons, List.foldl_cons,
    List.foldl_nil]
  rw [@applyPattern_eq (get_relative_path cwd) cwd p relC c
    ("@/components/".toList, "components") hgC hneC]
  rw [@applyPattern_eq (get_relative_path cwd) cwd p relL _
    ("@/lib/".toList, "lib") hgL hneL]
  rw [@applyPattern_eq (get_relative_path cwd) cwd p relX _
    ("@/context/".toList, "context") hgX hneX]
  rw [@applyPattern_eq (get_relative_path cwd) cwd p relT _
    ("@/types".toList, "types") hgT hneT]
  rfl

theorem pass_keep_absent_litD {stail rel suffix2 : List Char}
    (hstf : fFree stail) (hstat : '@' ∉ stail) (hrf : fFree rel)
    (hrh : rel.head? = some '.') (hsfx2 : suffixOK suffix2)
    (content : List Char) (h : ¬ litD suffix2 <:+: content) :
    ¬ litD suffix2 <:+: passFold ('@' :: '/' :: stail) rel content :=
  pass_keep_absent hstf hstat hrf (litD_anchored hsfx2)
    (lit_nid_no_share_D hsfx2.1 hrh) (lit_nis_no_share_D hsfx2.1 hrh)
    content h

theorem pass_keep_absent_litS {stail rel suffix2 : List Char}
    (hstf : fFree stail) (hstat : '@' ∉ stail) (hrf : fFree rel)
    (hrh : rel.head? = some '.') (hsfx2 : suffixOK suffix2)
    (content : List Char) (h : ¬ litS suffix2 <:+: content) :
    ¬ litS suffix2 <:+: passFold ('@' :: '/' :: stail) rel content :=
  pass_keep_absent hstf hstat hrf (litS_anchored hsfx2)
    (lit_nid_no_share_S hsfx2.1 hrh) (lit_nis_no_share_S hsfx2.1 hrh)
    content h

theorem pass_keep_present_litD {stail rel suffix2 : List Char}
    (hstf : fFree stail) (hsfx2 : suffixOK suffix2)
    (hshD : ¬ sharesPref (litD suffix2) (litD ('@' :: '/' :: stail)))
    (hshS : ¬ sharesPref (litD suffix2) (litS ('@' :: '/' :: stail)))
    (content : List Char) (h : litD suffix2 <:+: content) :
    litD suffix2 <:+: passFold ('@' :: '/' :: stail) rel content :=
  pass_keep_present hstf (litD_anchored hsfx2) hshD hshS content h

theorem pass_keep_present_nid {stail rel stail2 rel2 : List Char}
    (hstf : fFree stail) (hstf2 : fFree stail2) (hrf2 : fFree rel2)
    (hrh2 : rel2.head? = some '.') (content : List Char)
    (h : newImpD rel2 stail2 <:+: content) :
    newImpD rel2 stail2 <:+: passFold ('@' :: '/' :: stail) rel content :=
  pass_keep_present hstf (newImpD_anchored hrf2 hstf2)
    (nid_lit_no_share_D rfl hrh2) (nid_lit_no_share_S rfl hrh2) content h

/-- After a full `fix_imports` run, no matched text of any of the four
patterns occurs in the content: each pass removes its own match texts, the
replacement texts cannot recreate any of them (they have no `@` where every
match text has one at index 6), and later passes preserve that absence. -/
theorem fix_imports_all_gone (cwd p : List String) (c : List Char) :
    ∀ pt ∈ patterns,
      ¬ litD pt.1 <:+: (fix_imports cwd p c).1 ∧
      ¬ litS pt.1 <:+: (fix_imports cwd p c).1 := by
  obtain ⟨relC, hgC, hneC, hhC, hfC, haC⟩ :=
    rel_facts_clean cwd p "components" (by decide)
  obtain ⟨relL, hgL, hneL, hhL, hfL, haL⟩ :=
    rel_facts_clean cwd p "lib" (by decide)
  obtain ⟨relX, hgX, hneX, hhX, hfX, haX⟩ :=
    rel_facts_clean cwd p "context" (by decide)
  obtain ⟨relT, hgT, hneT, hhT, hfT, haT⟩ :=
    rel_facts_clean cwd p "types" (by decide)
  rw [fix_imports_unfold cwd p c hgC hneC hgL hneL hgX hneX hgT hneT]
  intro pt hpt
  simp only [patterns, List.mem_cons, List.not_mem_nil, or_false] at hpt
  rcases hpt with rfl | rfl | rfl | rfl
  · have h1 := @pass_removes ("components/".toList) relC (by decide) (by decide) hfC hhC c
    constructor
    · refine pass_keep_absent_litD (by decide) (by decide) hfT hhT
        (by decide) _ ?_
      refine pass_keep_absent_litD (by decide) (by decide) hfX hhX
        (by decide) _ ?_
      exact pass_keep_absent_litD (by decide) (by decide) hfL hhL
        (by decide) _ h1.1
    · refine pass_keep_absent_litS (by decide) (by decide) hfT hhT
        (by decide) _ ?_
      refine pass_keep_absent_litS (by decide) (by decide) hfX hhX
        (by decide) _ ?_
      exact pass_keep_absent_litS (by decide) (by decide) hfL hhL
        (by decide) _ h1.2
  · have h1 := @pass_removes ("lib/".toList) relL (by decide) (by decide) hfL hhL
      (passFold ('@' :: '/' :: "components/".toList) relC c)
    constructor
    · refine pass_keep_absent_litD (by decide) (by decide) hfT hhT
        (by decide) _ ?_
      exact pass_keep_absent_litD (by decide) (by decide) hfX hhX
        (by decide) _ h1.1
    · refine pass_keep_absent_litS (by decide) (by decide) hfT hhT
        (by decide) _ ?_
      exact pass_keep_absent_litS (by decide) (by decide) hfX hhX
        (by decide) _ h1.2
  · have h1 := @pass_removes ("context/".toList) relX (by decide) (by decide) hfX hhX
      (passFold ('@' :: '/' :: "lib/".toList) relL
        (passFold ('@' :: '/' :: "components/".toList) relC c))
    constructor
    · exact pass_keep_absent_litD (by decide) (by decide) hfT hhT
        (by decide) _ h1.1
    · exact pass_keep_absent_litS (by decide) (by decide) hfT hhT
        (by decide) _ h1.2
  · exact @pass_removes ("types".toList) relT (by decide) (by decide) hfT hhT
      (passFold ('@' :: '/' :: "context/".toList) relX
        (passFold ('@' :: '/' :: "lib/".toList) relL
          (passFold ('@' :: '/' :: "components/".toList) relC c)))

/-- Idempotence of `fix_imports`: a second run finds no matches and changes
nothing. -/
theorem fix_imports_idem_core (cwd p : List String) (c : List Char) :
    (fix_imports cwd p ((fix_imports cwd p c).1)).1 = (fix_imports cwd p c).1 := by
  obtain ⟨relC, hgC, hneC, hhC, hfC, haC⟩ :=
    rel_facts_clean cwd p "components" (by decide)
  obtain ⟨relL, hgL, hneL, hhL, hfL, haL⟩ :=
    rel_facts_clean cwd p "lib" (by decide)
  obtain ⟨relX, hgX, hneX, hhX, hfX, haX⟩ :=
    rel_facts_clean cwd p "context" (by decide)
  obtain ⟨relT, hgT, hneT, hhT, hfT, haT⟩ :=
    rel_facts_clean cwd p "types" (by decide)
  have hall := fix_imports_all_gone cwd p c
  have hC := hall ("@/components/".toList, "components")
    (by simp [patterns])
  have hL := hall ("@/lib/".toList, "lib") (by simp [patterns])
  have hX := hall ("@/context/".toList, "context") (by simp [patterns])
  have hT := hall ("@/types".toList, "types") (by simp [patterns])
  rw [fix_imports_unfold cwd p ((fix_imports cwd p c).1)
    hgC hneC hgL hneL hgX hneX hgT hneT]
  have hC1 : ¬ litD ('@' :: '/' :: "components/".toList) <:+:
      (fix_imports cwd p c).1 := hC.1
  have hC2 : ¬ litS ('@' :: '/' :: "components/".toList) <:+:
      (fix_imports cwd p c).1 := hC.2
  have hL1 : ¬ litD ('@' :: '/' :: "lib/".toList) <:+:
      (fix_imports cwd p c).1 := hL.1
  have hL2 : ¬ litS ('@' :: '/' :: "lib/".toList) <:+:
      (fix_imports cwd p c).1 := hL.2
  have hX1 : ¬ litD ('@' :: '/' :: "context/".toList) <:+:
      (fix_imports cwd p c).1 := hX.1
  have hX2 : ¬ litS ('@' :: '/' :: "context/".toList) <:+:
      (fix_imports cwd p c).1 := hX.2
  have hT1 : ¬ litD ('@' :: '/' :: "types".toList) <:+:
      (fix_imports cwd p c).1 := hT.1
  have hT2 : ¬ litS ('@' :: '/' :: "types".toList) <:+:
      (fix_imports cwd p c).1 := hT.2
  rw [pass_noop hC1 hC2, pass_noop hL1 hL2, pass_noop hX1 hX2,
    pass_noop hT1 hT2]

/-- The rewritten double-quoted `@/lib/` import is present in the output when
it was present in the input. -/
theorem fix_imports_lib_rewrite (cwd p : List String) (c : List Char)
    {relL : List Char}
    (hgL : get_relative_path cwd p ((cwd ++ ["src"]) ++ ["lib"]) = some relL)
    (hL : litD ('@' :: '/' :: "lib/".toList) <:+: c) :
    newImpD relL ("lib/".toList) <:+: (fix_imports cwd p c).1 := by
  obtain ⟨relC, hgC, hneC, hhC, hfC, haC⟩ :=
    rel_facts_clean cwd p "components" (by decide)
  obtain ⟨relL2, hgL2, hneL, hhL, hfL, haL⟩ :=
    rel_facts_clean cwd p "lib" (by decide)
  obtain ⟨relX, hgX, hneX, hhX, hfX, haX⟩ :=
    rel_facts_clean cwd p "context" (by decide)
  obtain ⟨relT, hgT, hneT, hhT, hfT, haT⟩ :=
    rel_facts_clean cwd p "types" (by decide)
  have heq : relL = relL2 := by
    rw [hgL] at hgL2
    exact Option.some.inj hgL2
  rcases heq with rfl
  rw [fix_imports_unfold cwd p c hgC hneC hgL hneL hgX hneX hgT hneT]
  have h1 : litD ('@' :: '/' :: "lib/".toList) <:+:
      passFold ('@' :: '/' :: "components/".toList) relC c :=
    pass_keep_present_litD (by decide) (by decide) (by decide) (by decide) c hL
  have h2 := pass_makes (by decide) (by decide) hfL hhL _ h1
  have h3 : newImpD relL "lib/".toList <:+:
      passFold ('@' :: '/' :: "context/".toList) relX
        (passFold ('@' :: '/' :: "lib/".toList) relL
          (passFold ('@' :: '/' :: "components/".toList) relC c)) :=
    pass_keep_present_nid (by decide) (by decide) hfL hhL _ h2
  exact pass_keep_present_nid (by decide) (by decide) hfL hhL _ h3

/-- The rewritten double-quoted `@/types` import is present in the output when
it was present in the input. -/
theorem fix_imports_types_rewrite (cwd p : List String) (c : List Char)
    {relT : List Char}
    (hgT : get_relative_path cwd p ((cwd ++ ["src"]) ++ ["types"]) = some relT)
    (hT : litD ('@' :: '/' :: "types".toList) <:+: c) :
    newImpD relT ("types".toList) <:+: (fix_imports cwd p c).1 := by
  obtain ⟨relC, hgC, hneC, hhC, hfC, haC⟩ :=
    rel_facts_clean cwd p "components" (by decide)
  obtain ⟨relL, hgL, hneL, hhL, hfL, haL⟩ :=
    rel_facts_clean cwd p "lib" (by decide)
  obtain ⟨relX, hgX, hneX, hhX, hfX, haX⟩ :=
    rel_facts_clean cwd p "context" (by decide)
  obtain ⟨relT2, hgT2, hneT, hhT, hfT, haT⟩ :=
    rel_facts_clean cwd p "types" (by decide)
  have heq : relT = relT2 := by
    rw [hgT] at hgT2
    exact Option.some.inj hgT2
  rcases heq with rfl
  rw [fix_imports_unfold cwd p c hgC hneC hgL hneL hgX hneX hgT hneT]
  have h1 : litD ('@' :: '/' :: "types".toList) <:+:
      passFold ('@' :: '/' :: "components/".toList) relC c :=
    pass_keep_present_litD (by decide) (by decide) (by decide) (by decide) c hT
  have h2 : litD ('@' :: '/' :: "types".toList) <:+:
      passFold ('@' :: '/' :: "lib/".toList) relL
        (passFold ('@' :: '/' :: "components/".toList) relC c) :=
    pass_keep_present_litD (by decide) (by decide) (by decide) (by decide) _ h1
  have h3 : litD ('@' :: '/' :: "types".toList) <:+:
      passFold ('@' :: '/' :: "context/".toList) relX
        (passFold ('@' :: '/' :: "lib/".toList) relL
          (passFold ('@' :: '/' :: "components/".toList) relC c)) :=
    pass_keep_present_litD (by decide) (by decide) (by decide) (by decide) _ h2
  exact pass_makes (by decide) (by decide) hfT hhT _ h3

/-- A file whose content matches none of the four patterns is not changed. -/
theorem fix_imports_noop (cwd p : List String) (c : List Char)
    (h : ∀ pt ∈ patterns, ¬ litD pt.1 <:+: c ∧ ¬ litS pt.1 <:+: c) :
    (fix_imports cwd p c).1 = c := by
  obtain ⟨relC, hgC, hneC, hhC, hfC, haC⟩ :=
    rel_facts_clean cwd p "components" (by decide)
  obtain ⟨relL, hgL, hneL, hhL, hfL, haL⟩ :=
    rel_facts_clean cwd p "lib" (by decide)
  obtain ⟨relX, hgX, hneX, hhX, hfX, haX⟩ :=
    rel_facts_clean cwd p "context" (by decide)
  obtain ⟨relT, hgT, hneT, hhT, hfT, haT⟩ :=
    rel_facts_clean cwd p "types" (by decide)
  have hC := h ("@/components/".toList, "components") (by simp [patterns])
  have hL := h ("@/lib/".toList, "lib") (by simp [patterns])
  have hX := h ("@/context/".toList, "context") (by simp [patterns])
  have hT := h ("@/types".toList, "types") (by simp [patterns])
  have hC1 : ¬ litD ('@' :: '/' :: "components/".toList) <:+: c := hC.1
  have hC2 : ¬ litS ('@' :: '/' :: "components/".toList) <:+: c := hC.2
  have hL1 : ¬ litD ('@' :: '/' :: "lib/".toList) <:+: c := hL.1
  have hL2 : ¬ litS ('@' :: '/' :: "lib/".toList) <:+: c := hL.2
  have hX1 : ¬ litD ('@' :: '/' :: "context/".toList) <:+: c := hX.1
  have hX2 : ¬ litS ('@' :: '/' :: "context/".toList) <:+: c := hX.2
  have hT1 : ¬ litD ('@' :: '/' :: "types".toList) <:+: c := hT.1
  have hT2 : ¬ litS ('@' :: '/' :: "types".toList) <:+: c := hT.2
  rw [fix_imports_unfold cwd p c hgC hneC hgL hneL hgX hneX hgT hneT]
  rw [pass_noop hC1 hC2, pass_noop hL1 hL2, pass_noop hX1 hX2,
    pass_noop hT1 hT2]

/-- With a relative-path computation that always reports failure, every match
is skipped and the content is untouched. -/
theorem fix_imports_core_none (cwd p : List String) (c : List Char) :
    fix_imports_core (fun _ _ => none) cwd p c = c := by
  have hap : ∀ (content : List Char) (pt : List Char × String),
      applyPattern (fun _ _ => none) cwd p content pt = content := by
    intro content pt
    unfold applyPattern
    have hid : ∀ (ms : List (List Char)) (c0 : List Char),
        ms.foldl (fun (x : List Char) (_ : List Char) => x) c0 = c0 := by
      intro ms
      induction ms with
      | nil => intro c0; rfl
      | cons m ms ih => intro c0; exact ih c0
    exact hid (findMatches pt.1 content) content
  unfold fix_imports_core patterns
  rw [List.foldl_cons, List.foldl_cons, List.foldl_cons, List.foldl_cons,
    List.foldl_nil]
  rw [hap, hap, hap, hap]

/-- No backslash survives the backslash-to-slash substitution. -/
theorem no_backslash (s : List Char) : '\\' ∉ replaceAll ['\\'] ['/'] s := by
  induction s with
  | nil => simp
  | cons c rest ih =>
    by_cases hp : ['\\'] <+: c :: rest
    · rw [replaceAll_pos ['/'] (by simp) hp]
      intro h
      rcases List.mem_append.mp h with h | h
      · simp at h
      · exact ih (by simpa using h)
    · rw [replaceAll_neg ['/'] hp]
      intro h
      rcases List.mem_cons.mp h with rfl | h
      · exact hp ⟨rest, rfl⟩
      · exact ih h

/-! ## Commutation of replacements (for the span-rewrite equivalence) -/

theorem sharesPref_comm {a b : List Char} (h : ¬ sharesPref a b) :
    ¬ sharesPref b a := fun hc => h (Or.symm hc)

/-- A replacement scan passes over an `f`-free block unchanged. -/
theorem ra_append_ffree {old new x : List Char} (hold : anchored old)
    (hx : fFree x) (y : List Char) :
    replaceAll old new (x ++ y) = x ++ replaceAll old new y := by
  induction x with
  | nil => rfl
  | cons d x2 ih =>
    have hd : ¬ old <+: d :: (x2 ++ y) := by
      intro hp
      obtain ⟨ot, rfl, -⟩ := anch_cases hold
      rw [List.cons_prefix_cons] at hp
      exact hx d (by simp) hp.1.symm
    rw [List.cons_append, replaceAll_neg new hd,
      ih (fFree_cons_down hx), List.cons_append]

/-- A replacement scan passes over a different anchored block unchanged. -/
theorem ra_append_anch {old new x : List Char} (hold : anchored old)
    (hx : anchored x) (hsh : ¬ sharesPref old x) (y : List Char) :
    replaceAll old new (x ++ y) = x ++ replaceAll old new y := by
  obtain ⟨xt, rfl, hxt⟩ := anch_cases hx
  have hd : ¬ old <+: 'f' :: (xt ++ y) := by
    intro hp
    obtain ⟨ot, rfl, -⟩ := anch_cases hold
    rw [List.cons_prefix_cons] at hp
    rcases pref_append_cases hp.2 with h2 | ⟨u, rfl, -⟩
    · exact hsh (Or.inl (List.cons_prefix_cons.mpr ⟨rfl, h2⟩))
    · exact hsh (Or.inr (List.cons_prefix_cons.mpr
        ⟨rfl, List.prefix_append xt u⟩))
  rw [List.cons_append, replaceAll_neg new hd, ra_append_ffree hold hxt,
    List.cons_append]

/-- Replacements of two anchored, mutually prefix-incompatible strings by
anchored replacements commute. -/
theorem replaceAll_comm {a na b nb : List Char} (ha : anchored a)
    (hb : anchored b) (hna : anchored na) (hnb : anchored nb)
    (hab : ¬ sharesPref a b) (hanb : ¬ sharesPref a nb)
    (hbna : ¬ sharesPref b na) :
    ∀ s, replaceAll a na (replaceAll b nb s) =
      replaceAll b nb (replaceAll a na s) := by
  have main : ∀ n s, s.length ≤ n →
      replaceAll a na (replaceAll b nb s) =
        replaceAll b nb (replaceAll a na s) := by
    intro n
    induction n with
    | zero =>
      intro s hs
      have h0 : s = [] := List.eq_nil_of_length_eq_zero (Nat.le_zero.mp hs)
      subst h0
      rfl
    | succ n ih =>
      intro s hs
      match s with
      | [] => rfl
      | c :: rest =>
        by_cases hpa : a <+: c :: rest
        · have hpb : ¬ b <+: c :: rest := by
            intro hpb
            exact hab (pref_total hpa hpb)
          obtain ⟨t, ht⟩ := hpa
          have hdrop : (c :: rest).drop a.length = t := by
            rw [← ht, List.drop_left]
          have hlen : t.length ≤ n := by
            have h3 := congrArg List.length ht
            have h4 : 1 ≤ a.length := by
              obtain ⟨u, rfl, -⟩ := anch_cases ha
              simp
            simp only [List.length_append, List.length_cons] at h3 hs ⊢
            omega
          rw [← ht]
          rw [ra_append_anch hb ha (sharesPref_comm hab) t]
          rw [show replaceAll a na (a ++ t) =
              na ++ replaceAll a na ((a ++ t).drop a.length) from by
            match a, anch_ne_nil ha with
            | a0 :: a2, _ =>
              exact replaceAll_pos na (by simp) (List.prefix_append _ t)]
          rw [List.drop_left]
          rw [show replaceAll a na (a ++ replaceAll b nb t) =
              na ++ replaceAll a na
                ((a ++ replaceAll b nb t).drop a.length) from by
            match a, anch_ne_nil ha with
            | a0 :: a2, _ =>
              exact replaceAll_pos na (by simp) (List.prefix_append _ _)]
          rw [List.drop_left]
          rw [ra_append_anch hb hna hbna (replaceAll a na t)]
          rw [ih t hlen]
        · by_cases hpb : b <+: c :: rest
          · obtain ⟨t, ht⟩ := hpb
            have hdrop : (c :: rest).drop b.length = t := by
              rw [← ht, List.drop_left]
            have hlen : t.length ≤ n := by
              have h3 := congrArg List.length ht
              have h4 : 1 ≤ b.length := by
                obtain ⟨u, rfl, -⟩ := anch_cases hb
                simp
              simp only [List.length_append, List.length_cons] at h3 hs ⊢
              omega
            rw [← ht]
            rw [ra_append_anch ha hb hab t]
            rw [show replaceAll b nb (b ++ t) =
                nb ++ replaceAll b nb ((b ++ t).drop b.length) from by
              match b, anch_ne_nil hb with
              | b0 :: b2, _ =>
                exact replaceAll_pos nb (by simp) (List.prefix_append _ t)]
            rw [List.drop_left]
            rw [show replaceAll b nb (b ++ replaceAll a na t) =
                nb ++ replaceAll b nb
                  ((b ++ replaceAll a na t).drop b.length) from by
              match b, anch_ne_nil hb with
              | b0 :: b2, _ =>
                exact replaceAll_pos nb (by simp) (List.prefix_append _ _)]
            rw [List.drop_left]
            rw [ra_append_anch ha hnb hanb (replaceAll b nb t)]
            rw [ih t hlen]
          · rw [replaceAll_neg nb hpb, replaceAll_neg na hpa]
            have hpa2 : ¬ a <+: c :: replaceAll b nb rest :=
              no_pref_scan ha hb hnb hpa
            have hpb2 : ¬ b <+: c :: replaceAll a na rest :=
              no_pref_scan hb ha hna hpb
            rw [replaceAll_neg na hpa2, replaceAll_neg nb hpb2]
            have hlen : rest.length ≤ n := by
              simp only [List.length_cons] at hs
              omega
            rw [ih rest hlen]
  intro s
  exact main s.length s le_rfl

/-! ## Span-wise rewriting (the specification's per-match semantics) -/

/-- Span-wise rewriting, following the specification's own description of
per-match substitution (design note §9): scan the content once, left to
right; at each regex match replace exactly that match's span with the
replacement computed for that match (`repl` applied to the matched text), and
copy every other character unchanged.  This is the comparison definition for
the refinement claim; the script itself replaces matched text globally. -/
def spanRewriteAux (suffix : List Char) (repl : List Char → List Char) :
    Nat → List Char → List Char
  | _, [] => []
  | skip + 1, _ :: rest => spanRewriteAux suffix repl skip rest
  | 0, c :: rest =>
    match tryMatch suffix (c :: rest) with
    | some m => repl m ++ spanRewriteAux suffix repl (m.length - 1) rest
    | none => c :: spanRewriteAux suffix repl 0 rest

/-- Entry point of the span-wise rewriter. -/
def spanRewrite (suffix : List Char) (repl : List Char → List Char)
    (s : List Char) : List Char :=
  spanRewriteAux suffix repl 0 s

theorem spanRewriteAux_drop (suffix : List Char)
    (repl : List Char → List Char) :
    ∀ (s : List Char) (k : Nat),
      spanRewriteAux suffix repl k s = spanRewrite suffix repl (s.drop k) := by
  intro s
  induction s with
  | nil => intro k; cases k <;> rfl
  | cons c rest ih =>
    intro k
    cases k with
    | zero => rfl
    | succ k => simpa [spanRewriteAux] using ih k

theorem spanRewrite_cons_some {suffix m : List Char}
    {repl : List Char → List Char} {c : Char} {rest : List Char}
    (h : tryMatch suffix (c :: rest) = some m) :
    spanRewrite suffix repl (c :: rest) =
      repl m ++ spanRewrite suffix repl (rest.drop (m.length - 1)) := by
  rw [show spanRewrite suffix repl (c :: rest) =
    (match tryMatch suffix (c :: rest) with
      | some m => repl m ++ spanRewriteAux suffix repl (m.length - 1) rest
      | none => c :: spanRewriteAux suffix repl 0 rest) from rfl]
  rw [h]
  simp only [spanRewriteAux_drop]

theorem spanRewrite_cons_none {suffix : List Char}
    {repl : List Char → List Char} {c : Char} {rest : List Char}
    (h : tryMatch suffix (c :: rest) = none) :
    spanRewrite suffix repl (c :: rest) =
      c :: spanRewrite suffix repl rest := by
  rw [show spanRewrite suffix repl (c :: rest) =
    (match tryMatch suffix (c :: rest) with
      | some m => repl m ++ spanRewriteAux suffix repl (m.length - 1) rest
      | none => c :: spanRewriteAux suffix repl 0 rest) from rfl]
  rw [h]
  rw [spanRewriteAux_drop]
  rfl

/-- A fold of per-match steps passes over a character that starts no match. -/
theorem fold_cons_out {stail rel : List Char} (hstf : fFree stail)
    (hstat : '@' ∉ stail) (hrf : fFree rel) :
    ∀ (ms : List (List Char)) (c : Char) (rest : List Char),
      (∀ m ∈ ms, m = litD ('@' :: '/' :: stail) ∨
        m = litS ('@' :: '/' :: stail)) →
      ¬ litD ('@' :: '/' :: stail) <+: c :: rest →
      ¬ litS ('@' :: '/' :: stail) <+: c :: rest →
      ms.foldl (stepRepl rel) (c :: rest) =
        c :: ms.foldl (stepRepl rel) rest := by
  have hsfx := suffixOK_pat hstf
  have hDa := litD_anchored hsfx
  have hSa := litS_anchored hsfx
  have hnda : anchored (newImportOf rel (litD ('@' :: '/' :: stail))) := by
    rw [newImportOf_litD hstat]
    exact newImpD_anchored hrf hstf
  have hnsa : anchored (newImportOf rel (litS ('@' :: '/' :: stail))) := by
    rw [newImportOf_litS hstat]
    exact newImpS_anchored hrf hstf
  intro ms
  induction ms with
  | nil =>
    intro c rest _ _ _
    rfl
  | cons m ms ih =>
    intro c rest hm hD hS
    rw [List.foldl_cons, List.foldl_cons]
    have hmtail : ∀ x ∈ ms, x = litD ('@' :: '/' :: stail) ∨
        x = litS ('@' :: '/' :: stail) :=
      fun x hx => hm x (List.mem_cons_of_mem _ hx)
    rcases hm m (List.mem_cons_self _ _) with rfl | rfl
    · rw [show stepRepl rel (c :: rest) (litD ('@' :: '/' :: stail)) =
        c :: stepRepl rel rest (litD ('@' :: '/' :: stail)) from by
          rw [stepRepl_litD hstat, stepRepl_litD hstat, replaceAll_neg _ hD]]
      exact ih c _ hmtail
        (no_pref_scan hDa hDa hnda hD)
        (no_pref_scan hSa hDa hnda hS)
    · rw [show stepRepl rel (c :: rest) (litS ('@' :: '/' :: stail)) =
        c :: stepRepl rel rest (litS ('@' :: '/' :: stail)) from by
          rw [stepRepl_litS hstat, stepRepl_litS hstat, replaceAll_neg _ hS]]
      exact ih c _ hmtail
        (no_pref_scan hDa hSa hnsa hD)
        (no_pref_scan hSa hSa hnsa hS)

/-- A fold of per-match steps passes over an anchored block that is
prefix-incompatible with both match texts. -/
theorem fold_append_out {stail rel x : List Char} (hstf : fFree stail)
    (hx : anchored x)
    (hshD : ¬ sharesPref (litD ('@' :: '/' :: stail)) x)
    (hshS : ¬ sharesPref (litS ('@' :: '/' :: stail)) x) :
    ∀ (ms : List (List Char)) (y : List Char),
      (∀ m ∈ ms, m = litD ('@' :: '/' :: stail) ∨
        m = litS ('@' :: '/' :: stail)) →
      ms.foldl (stepRepl rel) (x ++ y) = x ++ ms.foldl (stepRepl rel) y := by
  have hsfx := suffixOK_pat hstf
  intro ms
  induction ms with
  | nil =>
    intro y _
    rfl
  | cons m ms ih =>
    intro y hm
    rw [List.foldl_cons, List.foldl_cons]
    have hmtail : ∀ z ∈ ms, z = litD ('@' :: '/' :: stail) ∨
        z = litS ('@' :: '/' :: stail) :=
      fun z hz => hm z (List.mem_cons_of_mem _ hz)
    rcases hm m (List.mem_cons_self _ _) with rfl | rfl
    · rw [show stepRepl rel (x ++ y) (litD ('@' :: '/' :: stail)) =
        x ++ stepRepl rel y (litD ('@' :: '/' :: stail)) from
          ra_append_anch (litD_anchored hsfx) hx hshD y]
      exact ih _ hmtail
    · rw [show stepRepl rel (x ++ y) (litS ('@' :: '/' :: stail)) =
        x ++ stepRepl rel y (litS ('@' :: '/' :: stail)) from
          ra_append_anch (litS_anchored hsfx) hx hshS y]
      exact ih _ hmtail

/-- Replacing the double-quoted match text first and then folding equals
folding first and then replacing: every fold step commutes with it. -/
theorem fold_pull_D {stail rel : List Char} (hstf : fFree stail)
    (hstat : '@' ∉ stail) (hrf : fFree rel) (hrh : rel.head? = some '.') :
    ∀ (ms : List (List Char)) (x : List Char),
      (∀ m ∈ ms, m = litD ('@' :: '/' :: stail) ∨
        m = litS ('@' :: '/' :: stail)) →
      ms.foldl (stepRepl rel)
          (replaceAll (litD ('@' :: '/' :: stail)) (newImpD rel stail) x) =
        replaceAll (litD ('@' :: '/' :: stail)) (newImpD rel stail)
          (ms.foldl (stepRepl rel) x) := by
  have hsfx := suffixOK_pat hstf
  have hDa := litD_anchored hsfx
  have hSa := litS_anchored hsfx
  have hnda := newImpD_anchored hrf hstf
  have hnsa := newImpS_anchored hrf hstf
  intro ms
  induction ms with
  | nil =>
    intro x _
    rfl
  | cons m ms ih =>
    intro x hm
    rw [List.foldl_cons, List.foldl_cons]
    have hmtail : ∀ z ∈ ms, z = litD ('@' :: '/' :: stail) ∨
        z = litS ('@' :: '/' :: stail) :=
      fun z hz => hm z (List.mem_cons_of_mem _ hz)
    rcases hm m (List.mem_cons_self _ _) with rfl | rfl
    · rw [show stepRepl rel
        (replaceAll (litD ('@' :: '/' :: stail)) (newImpD rel stail) x)
        (litD ('@' :: '/' :: stail)) =
          replaceAll (litD ('@' :: '/' :: stail)) (newImpD rel stail)
            (stepRepl rel x (litD ('@' :: '/' :: stail))) from by
        rw [stepRepl_litD hstat, stepRepl_litD hstat]]
      exact ih _ hmtail
    · rw [show stepRepl rel
        (replaceAll (litD ('@' :: '/' :: stail)) (newImpD rel stail) x)
        (litS ('@' :: '/' :: stail)) =
          replaceAll (litD ('@' :: '/' :: stail)) (newImpD rel stail)
            (stepRepl rel x (litS ('@' :: '/' :: stail))) from by
        rw [stepRepl_litS hstat, stepRepl_litS hstat]
        exact replaceAll_comm hSa hDa hnsa hnda (litS_litD_no_share _)
          (@lit_nid_no_share_S ('@' :: '/' :: stail) rel stail rfl hrh)
          (@lit_nis_no_share_D ('@' :: '/' :: stail) rel stail rfl hrh) x]
      exact ih _ hmtail

/-- Replacing the single-quoted match text first and then folding equals
folding first and then replacing. -/
theorem fold_pull_S {stail rel : List Char} (hstf : fFree stail)
    (hstat : '@' ∉ stail) (hrf : fFree rel) (hrh : rel.head? = some '.') :
    ∀ (ms : List (List Char)) (x : List Char),
      (∀ m ∈ ms, m = litD ('@' :: '/' :: stail) ∨
        m = litS ('@' :: '/' :: stail)) →
      ms.foldl (stepRepl rel)
          (replaceAll (litS ('@' :: '/' :: stail)) (newImpS rel stail) x) =
        replaceAll (litS ('@' :: '/' :: stail)) (newImpS rel stail)
          (ms.foldl (stepRepl rel) x) := by
  have hsfx := suffixOK_pat hstf
  have hDa := litD_anchored hsfx
  have hSa := litS_anchored hsfx
  have hnda := newImpD_anchored hrf hstf
  have hnsa := newImpS_anchored hrf hstf
  intro ms
  induction ms with
  | nil =>
    intro x _
    rfl
  | cons m ms ih =>
    intro x hm
    rw [List.foldl_cons, List.foldl_cons]
    have hmtail : ∀ z ∈ ms, z = litD ('@' :: '/' :: stail) ∨
        z = litS ('@' :: '/' :: stail) :=
      fun z hz => hm z (List.mem_cons_of_mem _ hz)
    rcases hm m (List.mem_cons_self _ _) with rfl | rfl
    · rw [show stepRepl rel
        (replaceAll (litS ('@' :: '/' :: stail)) (newImpS rel stail) x)
        (litD ('@' :: '/' :: stail)) =
          replaceAll (litS ('@' :: '/' :: stail)) (newImpS rel stail)
            (stepRepl rel x (litD ('@' :: '/' :: stail))) from by
        rw [stepRepl_litD hstat, stepRepl_litD hstat]
        exact replaceAll_comm hDa hSa hnda hnsa (litD_litS_no_share _)
          (@lit_nis_no_share_D ('@' :: '/' :: stail) rel stail rfl hrh)
          (@lit_nid_no_share_S ('@' :: '/' :: stail) rel stail rfl hrh) x]
      exact ih _ hmtail
    · rw [show stepRepl rel
        (replaceAll (litS ('@' :: '/' :: stail)) (newImpS rel stail) x)
        (litS ('@' :: '/' :: stail)) =
          replaceAll (litS ('@' :: '/' :: stail)) (newImpS rel stail)
            (stepRepl rel x (litS ('@' :: '/' :: stail))) from by
        rw [stepRepl_litS hstat, stepRepl_litS hstat]]
      exact ih _ hmtail

/-- Replacing a text that sits at the head of the string. -/
theorem ra_self_head {old new : List Char} (hne : old ≠ []) (t : List Char) :
    replaceAll old new (old ++ t) = new ++ replaceAll old new t := by
  match old, hne with
  | o :: old2, _ =>
    rw [List.cons_append,
      replaceAll_pos new (by simp)
        (show (o :: old2) <+: o :: (old2 ++ t) from ⟨t, by simp⟩)]
    congr 1
    rw [show (o :: (old2 ++ t)).drop (o :: old2).length =
      (old2 ++ t).drop old2.length from by
        simp [List.drop_succ_cons]]
    rw [List.drop_left]

/-- The script's per-pattern pass — global replacement of each matched text,
keyed on the matches of the original content — produces exactly the same
result as span-wise rewriting, where each match's own span is replaced with
its own computed import text. -/
theorem passFold_eq_spanRewrite {stail rel : List Char} (hstf : fFree stail)
    (hstat : '@' ∉ stail) (hrf : fFree rel) (hrh : rel.head? = some '.') :
    ∀ s, passFold ('@' :: '/' :: stail) rel s =
      spanRewrite ('@' :: '/' :: stail) (newImportOf rel) s := by
  have hsfx := suffixOK_pat hstf
  have hDa := litD_anchored hsfx
  have hSa := litS_anchored hsfx
  have hnda := newImpD_anchored hrf hstf
  have hnsa := newImpS_anchored hrf hstf
  have main : ∀ n s, s.length ≤ n →
      passFold ('@' :: '/' :: stail) rel s =
        spanRewrite ('@' :: '/' :: stail) (newImportOf rel) s := by
    intro n
    induction n with
    | zero =>
      intro s hs
      have h0 : s = [] := List.eq_nil_of_length_eq_zero (Nat.le_zero.mp hs)
      subst h0
      rfl
    | succ n ih =>
      intro s hs
      match s with
      | [] => rfl
      | c :: rest =>
        cases htm : tryMatch ('@' :: '/' :: stail) (c :: rest) with
        | none =>
          have hD := (tryMatch_eq_none htm).1
          have hS := (tryMatch_eq_none htm).2
          have hlen : rest.length ≤ n := by
            simp only [List.length_cons] at hs
            omega
          rw [spanRewrite_cons_none htm]
          show (findMatches ('@' :: '/' :: stail) (c :: rest)).foldl
            (stepRepl rel) (c :: rest) = _
          rw [findMatches_cons_none htm]
          rw [fold_cons_out hstf hstat hrf _ c rest
            (fun _ hm => findMatches_mem hm) hD hS]
          rw [← ih rest hlen]
          rfl
        | some m =>
          rcases tryMatch_eq_some htm with ⟨rfl, hpre⟩ | ⟨rfl, hpre⟩
          · obtain ⟨t, ht⟩ := hpre
            have hdrop : rest.drop
                ((litD ('@' :: '/' :: stail)).length - 1) = t := by
              have h1 : (c :: rest).drop
                  ((litD ('@' :: '/' :: stail)).length) = t := by
                rw [← ht, List.drop_left]
              rw [litD_cons] at h1 ⊢
              simp only [List.length_cons, Nat.add_sub_cancel] at h1 ⊢
              rw [List.drop_succ_cons] at h1
              exact h1
            have hlent : t.length ≤ n := by
              have h3 := congrArg List.length ht
              have hll : 1 ≤ (litD ('@' :: '/' :: stail)).length := by
                rw [litD_cons]
                simp
              simp only [List.length_append, List.length_cons] at h3 hs
              omega
            rw [spanRewrite_cons_some htm, hdrop, newImportOf_litD hstat]
            show (findMatches ('@' :: '/' :: stail) (c :: rest)).foldl
              (stepRepl rel) (c :: rest) = _
            rw [findMatches_cons_some htm, hdrop, List.foldl_cons]
            have hstep : stepRepl rel (c :: rest)
                (litD ('@' :: '/' :: stail)) =
                newImpD rel stail ++
                  replaceAll (litD ('@' :: '/' :: stail))
                    (newImpD rel stail) t := by
              rw [stepRepl_litD hstat, ← ht,
                ra_self_head (anch_ne_nil hDa) t]
            rw [hstep]
            rw [fold_append_out hstf hnda
              (@lit_nid_no_share_D ('@' :: '/' :: stail) rel stail rfl hrh)
              (@lit_nid_no_share_S ('@' :: '/' :: stail) rel stail rfl hrh)
              (findMatches ('@' :: '/' :: stail) t)
              (replaceAll (litD ('@' :: '/' :: stail)) (newImpD rel stail) t)
              (fun _ hm => findMatches_mem hm)]
            rw [fold_pull_D hstf hstat hrf hrh
              (findMatches ('@' :: '/' :: stail) t) t
              (fun _ hm => findMatches_mem hm)]
            have hPF : (findMatches ('@' :: '/' :: stail) t).foldl
                (stepRepl rel) t =
                spanRewrite ('@' :: '/' :: stail) (newImportOf rel) t :=
              ih t hlent
            rw [hPF]
            have hgone : ¬ litD ('@' :: '/' :: stail) <:+:
                spanRewrite ('@' :: '/' :: stail) (newImportOf rel) t := by
              rw [← hPF]
              by_cases h2 : litD ('@' :: '/' :: stail) <:+: t
              · exact fold_removes_D hstf hstat hrf hrh _ t
                  (fun _ hm => findMatches_mem hm)
                  (Or.inl (litD_mem_findMatches hsfx h2))
              · exact fold_removes_D hstf hstat hrf hrh _ t
                  (fun _ hm => findMatches_mem hm) (Or.inr h2)
            rw [replaceAll_not_occ hgone]
          · obtain ⟨t, ht⟩ := hpre
            have hdrop : rest.drop
                ((litS ('@' :: '/' :: stail)).length - 1) = t := by
              have h1 : (c :: rest).drop
                  ((litS ('@' :: '/' :: stail)).length) = t := by
                rw [← ht, List.drop_left]
              rw [litS_cons] at h1 ⊢
              simp only [List.length_cons, Nat.add_sub_cancel] at h1 ⊢
              rw [List.drop_succ_cons] at h1
              exact h1
            have hlent : t.length ≤ n := by
              have h3 := congrArg List.length ht
              have hll : 1 ≤ (litS ('@' :: '/' :: stail)).length := by
                rw [litS_cons]
                simp
              simp only [List.length_append, List.length_cons] at h3 hs
              omega
            rw [spanRewrite_cons_some htm, hdrop, newImportOf_litS hstat]
            show (findMatches ('@' :: '/' :: stail) (c :: rest)).foldl
              (stepRepl rel) (c :: rest) = _
            rw [findMatches_cons_some htm, hdrop, List.foldl_cons]
            have hstep : stepRepl rel (c :: rest)
                (litS ('@' :: '/' :: stail)) =
                newImpS rel stail ++
                  replaceAll (litS ('@' :: '/' :: stail))
                    (newImpS rel stail) t := by
              rw [stepRepl_litS hstat, ← ht,
                ra_self_head (anch_ne_nil hSa) t]
            rw [hstep]
            rw [fold_append_out hstf hnsa
              (@lit_nis_no_share_D ('@' :: '/' :: stail) rel stail rfl hrh)
              (@lit_nis_no_share_S ('@' :: '/' :: stail) rel stail rfl hrh)
              (findMatches ('@' :: '/' :: stail) t)
              (replaceAll (litS ('@' :: '/' :: stail)) (newImpS rel stail) t)
              (fun _ hm => findMatches_mem hm)]
            rw [fold_pull_S hstf hstat hrf hrh
              (findMatches ('@' :: '/' :: stail) t) t
              (fun _ hm => findMatches_mem hm)]
            have hPF : (findMatches ('@' :: '/' :: stail) t).foldl
                (stepRepl rel) t =
                spanRewrite ('@' :: '/' :: stail) (newImportOf rel) t :=
              ih t hlent
            rw [hPF]
            have hgone : ¬ litS ('@' :: '/' :: stail) <:+:
                spanRewrite ('@' :: '/' :: stail) (newImportOf rel) t := by
              rw [← hPF]
              by_cases h2 : litS ('@' :: '/' :: stail) <:+: t
              · exact fold_removes_S hstf hstat hrf hrh _ t
                  (fun _ hm => findMatches_mem hm)
                  (Or.inl (litS_mem_findMatches hsfx h2))
              · exact fold_removes_S hstf hstat hrf hrh _ t
                  (fun _ hm => findMatches_mem hm) (Or.inr h2)
            rw [replaceAll_not_occ hgone]
  intro s
  exact main s.length s le_rfl

/-! ## The claims -/

/-- C1. The claim states that a file at `src/components/x.ts` importing
`from "@/lib/foo"` is rewritten to contain `from "../lib/foo"`.  The code
does not do this: it computes the relative path to `src/lib` (namely
`../lib`) and substitutes it for the alias `@/` alone, keeping the `lib/` of
the matched text, so the output contains `from "../lib/lib/foo"` — a
duplicated directory segment — and not `from "../lib/foo"`.  This theorem
evaluates the rewriter at that failing input. -/
theorem C1_target_dir_duplicated :
    (fix_imports [] ["src", "components", "x.ts"]
        "import foo from \"@/lib/foo\";".toList).1 =
      "import foo from \"../lib/lib/foo\";".toList ∧
    ¬ ("from \"../lib/foo\"".toList <:+:
      (fix_imports [] ["src", "components", "x.ts"]
        "import foo from \"@/lib/foo\";".toList).1) := by
  constructor
  · decide
  · decide

/-- C2. A file containing a double-quoted `@/lib/` import and a double-quoted
`@/types` import has both rewritten: for each alias the `@/` is replaced by
the relative path computed from the file's directory to that alias's own
target subdirectory, so the output contains `from "<relL>/lib/` and
`from "<relT>/types` where `relL` and `relT` are the paths computed by
`get_relative_path` for `src/lib` and `src/types` respectively. -/
theorem C2_both_aliases_rewritten (cwd p : List String) (c : List Char)
    {relL relT : List Char}
    (hgL : get_relative_path cwd p ((cwd ++ ["src"]) ++ ["lib"]) = some relL)
    (hgT : get_relative_path cwd p ((cwd ++ ["src"]) ++ ["types"]) =
      some relT)
    (hL : "from \"@/lib/".toList <:+: c)
    (hT : "from \"@/types".toList <:+: c) :
    ("from \"".toList ++ (relL ++ "/lib/".toList)) <:+:
        (fix_imports cwd p c).1 ∧
      ("from \"".toList ++ (relT ++ "/types".toList)) <:+:
        (fix_imports cwd p c).1 := by
  constructor
  · exact fix_imports_lib_rewrite cwd p c hgL hL
  · exact fix_imports_types_rewrite cwd p c hgT hT

theorem C2_witness :
    ("from \"".toList ++ ("../lib".toList ++ "/lib/".toList)) <:+:
        (fix_imports [] ["src", "components", "x.ts"]
          "import a from \"@/lib/a\";\nimport t from \"@/types\";".toList).1 ∧
      ("from \"".toList ++ ("../types".toList ++ "/types".toList)) <:+:
        (fix_imports [] ["src", "components", "x.ts"]
          "import a from \"@/lib/a\";\nimport t from \"@/types\";".toList).1 :=
  C2_both_aliases_rewritten [] ["src", "components", "x.ts"]
    "import a from \"@/lib/a\";\nimport t from \"@/types\";".toList
    (by decide) (by decide) (by decide) (by decide)

/-- C3. For a file lying directly in `src/` (path `src/<name>`) that contains
a double-quoted `@/lib/` import, the rewritten prefix has the `./lib/` form:
the target directory `lib` is a direct child of the file's directory, the
computed relative path is the bare name `lib`, and the `./` prefix is added,
so the output contains `from "./lib/`. -/
theorem C3_direct_child_dot_slash (cwd : List String) (name : String)
    (c : List Char) (h : "from \"@/lib/".toList <:+: c) :
    "from \"./lib/".toList <:+: (fix_imports cwd ["src", name] c).1 := by
  have hgL : get_relative_path cwd ["src", name]
      ((cwd ++ ["src"]) ++ ["lib"]) = some ("./lib".toList) := by
    have hdef : get_relative_path cwd ["src", name]
        ((cwd ++ ["src"]) ++ ["lib"]) =
        some (if (replaceAll ['\\'] ['/']
            (relpath ((cwd ++ ["src"]) ++ ["lib"]) (cwd ++ ["src"]))).head? =
            some '.' then
          replaceAll ['\\'] ['/']
            (relpath ((cwd ++ ["src"]) ++ ["lib"]) (cwd ++ ["src"]))
        else '.' :: '/' :: replaceAll ['\\'] ['/']
          (relpath ((cwd ++ ["src"]) ++ ["lib"]) (cwd ++ ["src"]))) := rfl
    rw [hdef]
    rw [show (cwd ++ ["src"]) ++ ["lib"] = cwd ++ ["src", "lib"] from by simp]
    rw [relpath_cancel cwd ["src", "lib"] ["src"]]
    rfl
  have h2 := fix_imports_lib_rewrite cwd ["src", name] c hgL h
  have hpre : "from \"./lib/".toList <+:
      newImpD ("./lib".toList) ("lib/".toList) := by decide
  exact hpre.isInfix.trans h2

theorem C3_witness :
    "from \"./lib/".toList <:+:
      (fix_imports ["home"] ["src", "app.tsx"]
        "import x from \"@/lib/x\";".toList).1 :=
  C3_direct_child_dot_slash ["home"] "app.tsx"
    "import x from \"@/lib/x\";".toList (by decide)

/-- C4. Idempotence: running the rewriter a second time on the content
produced by a first run yields that content unchanged, for every working
directory, file path and content — after the first run no text matching any
of the four alias patterns remains, so the second run finds no matches. -/
theorem C4_idempotent (cwd p : List String) (c : List Char) :
    (fix_imports cwd p ((fix_imports cwd p c).1)).1 =
      (fix_imports cwd p c).1 :=
  fix_imports_idem_core cwd p c

/-- C5. Substitution is whole-content replacement of the matched text: after
the run, no occurrence of the double-quoted `@/lib/` import text remains
anywhere in the file — every occurrence was rewritten — and the replacement
text built from the relative path computed from the file's path (the same
path for every match, since it does not depend on the match's position)
occurs in the output. -/
theorem C5_every_occurrence_rewritten (cwd p : List String) (c : List Char)
    {relL : List Char}
    (hgL : get_relative_path cwd p ((cwd ++ ["src"]) ++ ["lib"]) = some relL)
    (hL : "from \"@/lib/".toList <:+: c) :
    ¬ ("from \"@/lib/".toList <:+: (fix_imports cwd p c).1) ∧
      ("from \"".toList ++ (relL ++ "/lib/".toList)) <:+:
        (fix_imports cwd p c).1 := by
  constructor
  · exact (fix_imports_all_gone cwd p c ("@/lib/".toList, "lib")
      (by simp [patterns])).1
  · exact fix_imports_lib_rewrite cwd p c hgL hL

theorem C5_witness :
    ¬ ("from \"@/lib/".toList <:+:
      (fix_imports [] ["src", "context", "y.ts"]
        "a from \"@/lib/a\";\nb from \"@/lib/a\";".toList).1) ∧
      ("from \"".toList ++ ("../lib".toList ++ "/lib/".toList)) <:+:
        (fix_imports [] ["src", "context", "y.ts"]
          "a from \"@/lib/a\";\nb from \"@/lib/a\";".toList).1 :=
  C5_every_occurrence_rewritten [] ["src", "context", "y.ts"]
    "a from \"@/lib/a\";\nb from \"@/lib/a\";".toList (by decide) (by decide)

/-- C6. `get_relative_path` always succeeds, its result contains no
backslash (the separators are forward slashes), and exactly when the raw
relative path does not already start with the path-traversal marker `.` the
result is that path prefixed with `./`; in all cases the result starts
with `.`. -/
theorem C6_get_relative_path_spec (cwd from_file to_dir : List String) :
    ∃ r, get_relative_path cwd from_file to_dir = some r ∧
      '\\' ∉ r ∧ r ≠ [] ∧ r.head? = some '.' ∧
      ((replaceAll ['\\'] ['/']
          (relpath to_dir (cwd ++ from_file.dropLast))).head? = some '.' →
        r = replaceAll ['\\'] ['/']
          (relpath to_dir (cwd ++ from_file.dropLast))) ∧
      ((replaceAll ['\\'] ['/']
          (relpath to_dir (cwd ++ from_file.dropLast))).head? ≠ some '.' →
        r = '.' :: '/' :: replaceAll ['\\'] ['/']
          (relpath to_dir (cwd ++ from_file.dropLast))) := by
  set rel0 := replaceAll ['\\'] ['/']
    (relpath to_dir (cwd ++ from_file.dropLast)) with hrel0
  have hdef : get_relative_path cwd from_file to_dir =
      some (if rel0.head? = some '.' then rel0 else '.' :: '/' :: rel0) := rfl
  by_cases hh : rel0.head? = some '.'
  · refine ⟨rel0, by rw [hdef, if_pos hh], no_backslash _, ?_, hh,
      fun _ => rfl, fun hcon => absurd hh hcon⟩
    intro h0
    rw [h0] at hh
    simp at hh
  · refine ⟨'.' :: '/' :: rel0, by rw [hdef, if_neg hh], ?_, by simp,
      by simp, fun hcon => absurd hcon hh, fun _ => rfl⟩
    intro hmem
    rcases List.mem_cons.mp hmem with h0 | hmem
    · exact absurd h0 (by decide)
    · rcases List.mem_cons.mp hmem with h0 | hmem
      · exact absurd h0 (by decide)
      · exact no_backslash _ hmem

/-- C7. If the relative-path computation reports failure, the caller skips
the substitution for every match, leaving the content untouched — and
`fix_imports` still returns `True`; it returns `True` for every file,
including files where no pattern matched. -/
theorem C7_skip_and_success (cwd p : List String) (c : List Char) :
    fix_imports_core (fun _ _ => none) cwd p c = c ∧
      (fix_imports cwd p c).2 = true :=
  ⟨fix_imports_core_none cwd p c, rfl⟩

/-- C8. A processed file whose content matches none of the four alias
patterns is left byte-for-byte identical by the run, and the processed total
is the number of glob-matching files regardless of content, so the file
still counts toward it. -/
theorem C8_no_alias_unchanged_counted (cwd : List String)
    (files : List (List String × List Char)) (i : Nat)
    (hi : i < files.length)
    (hproc : shouldProcess (files[i]).1 = true)
    (hno : ∀ pt ∈ patterns, ¬ litD pt.1 <:+: (files[i]).2 ∧
      ¬ litS pt.1 <:+: (files[i]).2) :
    (run cwd files).1[i]? = some files[i] ∧
      (run cwd files).2 =
        (files.filter (fun f => shouldProcess f.1)).length := by
  constructor
  · show (files.map _)[i]? = _
    rw [List.getElem?_map, List.getElem?_eq_getElem hi, Option.map_some']
    have hfix : (fix_imports cwd (files[i]).1 (files[i]).2).1 =
        (files[i]).2 :=
      fix_imports_noop cwd (files[i]).1 (files[i]).2 hno
    simp only [hproc, if_true, hfix]
  · rfl

theorem C8_witness :
    (run [] [(["src", "a.ts"], "hello".toList)]).1[0]? =
        some (["src", "a.ts"], "hello".toList) ∧
      (run [] [(["src", "a.ts"], "hello".toList)]).2 =
        ([(["src", "a.ts"], "hello".toList)].filter
          (fun f => shouldProcess f.1)).length :=
  C8_no_alias_unchanged_counted [] [(["src", "a.ts"], "hello".toList)] 0
    (by decide) (by decide) (by decide)

/-- C9. The run processes exactly the files under `src` whose names match
the `*.ts*` glob: a file that does not match is left untouched, and the
processed total counts exactly the matching files. -/
theorem C9_non_matching_untouched (cwd : List String)
    (files : List (List String × List Char)) (i : Nat)
    (hi : i < files.length)
    (h : shouldProcess (files[i]).1 = false) :
    (run cwd files).1[i]? = some files[i] ∧
      (run cwd files).2 =
        (files.filter (fun f => shouldProcess f.1)).length := by
  constructor
  · show (files.map _)[i]? = _
    rw [List.getElem?_map, List.getElem?_eq_getElem hi, Option.map_some']
    simp only [h, if_false, Bool.false_eq_true]
  · rfl

theorem C9_witness :
    (run [] [(["src", "notes.txt"], "from \"@/lib/a\"".toList)]).1[0]? =
        some (["src", "notes.txt"], "from \"@/lib/a\"".toList) ∧
      (run [] [(["src", "notes.txt"], "from \"@/lib/a\"".toList)]).2 =
        ([(["src", "notes.txt"], "from \"@/lib/a\"".toList)].filter
          (fun f => shouldProcess f.1)).length :=
  C9_non_matching_untouched [] [(["src", "notes.txt"],
    "from \"@/lib/a\"".toList)] 0 (by decide) (by decide)

/-- C10. For a single pattern, the script's whole-content replacement —
replacing each matched text throughout the file, with the relative path
computed from the file's path and the pattern's target directory only, hence
the same for every match — produces exactly the same result as rewriting
each match at its own span with its own computed replacement
(`spanRewrite`). -/
theorem C10_whole_content_eq_span_rewrite (cwd p : List String)
    (c : List Char) (pt : List Char × String) (hpt : pt ∈ patterns)
    {rel : List Char}
    (hg : get_relative_path cwd p ((cwd ++ ["src"]) ++ [pt.2]) = some rel) :
    applyPattern (get_relative_path cwd) cwd p c pt =
      spanRewrite pt.1 (newImportOf rel) c := by
  simp only [patterns, List.mem_cons, List.not_mem_nil, or_false] at hpt
  rcases hpt with rfl | rfl | rfl | rfl
  · obtain ⟨rel2, hg2, hne, hh, hf, ha⟩ :=
      rel_facts_clean cwd p "components" (by decide)
    have heq : rel = rel2 := by
      rw [hg] at hg2
      exact Option.some.inj hg2
    rcases heq with rfl
    rw [@applyPattern_eq (get_relative_path cwd) cwd p rel c
      ("@/components/".toList, "components") hg hne]
    exact passFold_eq_spanRewrite (by decide) (by decide) hf hh c
  · obtain ⟨rel2, hg2, hne, hh, hf, ha⟩ :=
      rel_facts_clean cwd p "lib" (by decide)
    have heq : rel = rel2 := by
      rw [hg] at hg2
      exact Option.some.inj hg2
    rcases heq with rfl
    rw [@applyPattern_eq (get_relative_path cwd) cwd p rel c
      ("@/lib/".toList, "lib") hg hne]
    exact passFold_eq_spanRewrite (by decide) (by decide) hf hh c
  · obtain ⟨rel2, hg2, hne, hh, hf, ha⟩ :=
      rel_facts_clean cwd p "context" (by decide)
    have heq : rel = rel2 := by
      rw [hg] at hg2
      exact Option.some.inj hg2
    rcases heq with rfl
    rw [@applyPattern_eq (get_relative_path cwd) cwd p rel c
      ("@/context/".toList, "context") hg hne]
    exact passFold_eq_spanRewrite (by decide) (by decide) hf hh c
  · obtain ⟨rel2, hg2, hne, hh, hf, ha⟩ :=
      rel_facts_clean cwd p "types" (by decide)
    have heq : rel = rel2 := by
      rw [hg] at hg2
      exact Option.some.inj hg2
    rcases heq with rfl
    rw [@applyPattern_eq (get_relative_path cwd) cwd p rel c
      ("@/types".toList, "types") hg hne]
    exact passFold_eq_spanRewrite (by decide) (by decide) hf hh c

theorem C10_witness :
    applyPattern (get_relative_path []) [] ["src", "x.ts"]
        "p from \"@/lib/a\"; q from \"@/lib/b\";".toList
        ("@/lib/".toList, "lib") =
      spanRewrite "@/lib/".toList (newImportOf "./lib".toList)
        "p from \"@/lib/a\"; q from \"@/lib/b\";".toList :=
  C10_whole_content_eq_span_rewrite [] ["src", "x.ts"]
    "p from \"@/lib/a\"; q from \"@/lib/b\";".toList
    ("@/lib/".toList, "lib") (by decide) (by decide)

end FixImports
